import Mathlib

/-!
Verification development for the Fitzhugh-Nagumo knotted-vortex simulation
(`FN_knot_surface.cpp`).

Representation conventions used throughout this file:

* C `double` arithmetic is modelled by real numbers (`ℝ`);  `M_PI` is `Real.pi`.
  Division by zero in `ℝ` yields `0` (Lean's convention), whereas IEEE doubles
  produce `inf`/`NaN`; every place where this matters is noted at the definition.
* The flat C arrays of size `Nx*Ny*Nz`, indexed through
  `pt(i,j,k) = i*Ny*Nz + j*Nz + k`, are represented by their cell-indexed view
  `ℤ × ℤ × ℤ → _` — `pt` is injective on in-range cells and every array access
  performed by the translated code is at an in-range cell.
* The grid sizes `Nx, Ny, Nz` and the physical parameters (`h`, `dtime`,
  `epsilon`, `beta`, `gam`, `lambda`, …), which are global compile-time
  constants in the source, are ordinary parameters here, so that theorems
  quantify over them and witnesses can instantiate them at small values.
* A few one-line helpers (`incw`, `incp`, `sign`, the constant `sixth`, the
  option tag `FROM_KNOT_FILE`) live in the header `FN_knot_surface.h`, which is
  not part of the sources; they are modelled from the specification where so
  marked.
-/

namespace FN

noncomputable section

/-- A grid cell `(i, j, k)`. -/
abbrev Cell : Type := ℤ × ℤ × ℤ

/-! ## Phase wrapping (`while(phi>M_PI) phi -= 2*M_PI; while(phi<-M_PI) phi += 2*M_PI;`) -/

/-- The first wrapping loop of the source: `while(phi > M_PI) phi -= 2*M_PI;`. -/
def wrapDown (x : ℝ) : ℝ :=
  if h : Real.pi < x then wrapDown (x - 2 * Real.pi) else x
termination_by (⌈(x - Real.pi) / (2 * Real.pi)⌉).toNat
decreasing_by
  have key : (x - 2 * Real.pi - Real.pi) / (2 * Real.pi)
      = (x - Real.pi) / (2 * Real.pi) - 1 := by
    field_simp
    ring
  have hc : (0 : ℤ) < ⌈(x - Real.pi) / (2 * Real.pi)⌉ := by
    rw [Int.lt_ceil]
    push_cast
    have : 0 < x - Real.pi := by linarith
    positivity
  rw [key]
  have heq : ⌈(x - Real.pi) / (2 * Real.pi) - 1⌉ = ⌈(x - Real.pi) / (2 * Real.pi)⌉ - 1 := by
    exact_mod_cast Int.ceil_sub_int ((x - Real.pi) / (2 * Real.pi)) 1
  rw [heq]
  omega

/-- The second wrapping loop of the source: `while(phi < -M_PI) phi += 2*M_PI;`. -/
def wrapUp (x : ℝ) : ℝ :=
  if h : x < -Real.pi then wrapUp (x + 2 * Real.pi) else x
termination_by (⌈(-Real.pi - x) / (2 * Real.pi)⌉).toNat
decreasing_by
  have key : (-Real.pi - (x + 2 * Real.pi)) / (2 * Real.pi)
      = (-Real.pi - x) / (2 * Real.pi) - 1 := by
    field_simp
    ring
  have hc : (0 : ℤ) < ⌈(-Real.pi - x) / (2 * Real.pi)⌉ := by
    rw [Int.lt_ceil]
    push_cast
    have : 0 < -Real.pi - x := by linarith
    positivity
  rw [key]
  have heq : ⌈(-Real.pi - x) / (2 * Real.pi) - 1⌉ = ⌈(-Real.pi - x) / (2 * Real.pi)⌉ - 1 := by
    exact_mod_cast Int.ceil_sub_int ((-Real.pi - x) / (2 * Real.pi)) 1
  rw [heq]
  omega

/-- The wrapping step applied by the source after every phase computation:
both `while` loops in their source order. -/
def wrap (x : ℝ) : ℝ := wrapUp (wrapDown x)

/-! ## `phi_calc` (surface input) and `phi_calc_manual` -/

/-- The triangle record filled from the `.stl` surface file (fields of the
`triangle` struct of the missing header that `phi_calc` reads). -/
structure triangle where
  centre : ℝ × ℝ × ℝ
  normal : ℝ × ℝ × ℝ
  area : ℝ

/-- Body of the `for(s=0;s<NK;s++)` accumulation loop of `phi_calc`:
the solid-angle contribution of one surface element at the grid point
`(xi, yj, zk)`, guarded by `if(r>0)`. -/
def phi_calc_term (xi yj zk : ℝ) (s : triangle) : ℝ :=
  let rx := s.centre.1 - xi
  let ry := s.centre.2.1 - yj
  let rz := s.centre.2.2 - zk
  let r := Real.sqrt (rx * rx + ry * ry + rz * rz)
  if 0 < r then
    (rx * s.normal.1 + ry * s.normal.2.1 + rz * s.normal.2.2) * s.area / (2 * r * r * r)
  else 0

/-- The value `phi_calc` stores at cell `(i,j,k)`: the accumulated sum over the
surface, wrapped into a half-turn by the two `while` loops. -/
def phi_calc (x y z : ℤ → ℝ) (knotsurface : List triangle) (i j k : ℤ) : ℝ :=
  wrap ((knotsurface.map (phi_calc_term (x i) (y j) (z k))).sum)

/-- The C library function `atan2(y, x)`: the argument of the point `(x, y)`,
in `(-π, π]`. -/
def atan2 (y x : ℝ) : ℝ := Complex.arg ⟨x, y⟩

/-- The value `phi_calc_manual` stores at cell `(i,j,k)` (with its hard-coded
`theta = 0.5`), wrapped by the same two `while` loops. -/
def phi_calc_manual (x y z : ℤ → ℝ) (lambda : ℝ) (i j k : ℤ) : ℝ :=
  wrap (atan2 (y j - lambda) (x i - lambda)
    - atan2 (y j) (-Real.sin (1 / 2) * z k + Real.cos (1 / 2) * x i))

/-! ## Boundary-aware neighbour maps and `sign` (missing header helpers) -/

/-- Modelled from the spec: `incp(i,p,N)` of the missing header — the wrapped
(periodic) neighbour index. -/
def incp (i p N : ℤ) : ℤ := if i + p < 0 then N + i + p else (i + p) % N

/-- Modelled from the spec: `incw(i,p,N)` of the missing header — the reflected
neighbour index for the reflecting boundary (`-1 ↦ 0`, `N ↦ N-1`). -/
def incw (i p N : ℤ) : ℤ :=
  if i + p < 0 then -(i + p + 1)
  else if N - 1 < i + p then 2 * N - (i + p + 1)
  else i + p

/-- Modelled from the spec: `sign` of the missing header — the direction of the
straight diagonal step toward the target. -/
def sign (d : ℤ) : ℤ := if 0 < d then 1 else if d < 0 then -1 else 0

/-! ## Reaction-diffusion integrator (`uv_update`, `uv_add`) -/

/-- The global simulation parameters of the source (compile-time constants
there, parameters here). -/
structure FNParam where
  periodic : Bool
  Nx : ℤ
  Ny : ℤ
  Nz : ℤ
  h : ℝ
  dtime : ℝ
  epsilon : ℝ
  beta : ℝ
  gam : ℝ

/-- `oneoverhsq = 1.0/(h*h)`. -/
def oneoverhsq (P : FNParam) : ℝ := 1 / (P.h * P.h)

/-- `oneoverepsilon = 1.0/epsilon`. -/
def oneoverepsilon (P : FNParam) : ℝ := 1 / P.epsilon

/-- Modelled from the spec: the constant `sixth` of the missing header — the
RK weights `1,2,2,1` are normalised by `6`. -/
def sixth : ℝ := 1 / 6

/-- The `kup` neighbour of the stencil (`incp` under periodic boundaries,
`incw` otherwise). -/
def kup (P : FNParam) (k : ℤ) : ℤ := if P.periodic then incp k 1 P.Nz else incw k 1 P.Nz

/-- The `kdwn` neighbour of the stencil. -/
def kdwn (P : FNParam) (k : ℤ) : ℤ :=
  if P.periodic then incp k (-1) P.Nz else incw k (-1) P.Nz

/-- The 7-point Laplacian `D2u` computed inside the stage loop of `uv_update`. -/
def D2u (P : FNParam) (u : Cell → ℝ) (c : Cell) : ℝ :=
  oneoverhsq P * (u (incw c.1 1 P.Nx, c.2.1, c.2.2) + u (incw c.1 (-1) P.Nx, c.2.1, c.2.2)
    + u (c.1, incw c.2.1 1 P.Ny, c.2.2) + u (c.1, incw c.2.1 (-1) P.Ny, c.2.2)
    + u (c.1, c.2.1, kup P c.2.2) + u (c.1, c.2.1, kdwn P c.2.2) - 6 * u c)

/-- The activator stage derivative `ku[n]` (reaction term plus Laplacian). -/
def ku (P : FNParam) (u v : Cell → ℝ) (c : Cell) : ℝ :=
  oneoverepsilon P * (u c - u c * u c * u c / 3 - v c) + D2u P u c

/-- The recovery stage derivative `kv[n]`. -/
def kv (P : FNParam) (u v : Cell → ℝ) (c : Cell) : ℝ :=
  P.epsilon * (u c + P.beta - P.gam * v c)

/-- `uv_add`: move the fields to `uold + dtime*inc*k` and accumulate
`coeff*k` into the stage totals.  Returns `(u, v, kut, kvt)`. -/
def uv_add (P : FNParam) (uold vold kuf kvf kut kvt : Cell → ℝ) (inc coeff : ℝ) :
    (Cell → ℝ) × (Cell → ℝ) × (Cell → ℝ) × (Cell → ℝ) :=
  (fun c => uold c + P.dtime * inc * kuf c,
   fun c => vold c + P.dtime * inc * kvf c,
   fun c => kut c + coeff * kuf c,
   fun c => kvt c + coeff * kvf c)

/-- One full timestep of `uv_update` (the `RK4` build): four stage-derivative
sweeps interleaved with `uv_add(…,0.5,1.0)`, `uv_add(…,0.5,2.0)`,
`uv_add(…,1.0,2.0)` and the final `u = uold + dtime*sixth*(kut+ku)` sweep. -/
def uv_update (P : FNParam) (u v : Cell → ℝ) : (Cell → ℝ) × (Cell → ℝ) :=
  let uold := u
  let vold := v
  let ku1 := ku P u v
  let kv1 := kv P u v
  let s1 := uv_add P uold vold ku1 kv1 (fun _ => 0) (fun _ => 0) 0.5 1
  let ku2 := ku P s1.1 s1.2.1
  let kv2 := kv P s1.1 s1.2.1
  let s2 := uv_add P uold vold ku2 kv2 s1.2.2.1 s1.2.2.2 0.5 2
  let ku3 := ku P s2.1 s2.2.1
  let kv3 := kv P s2.1 s2.2.1
  let s3 := uv_add P uold vold ku3 kv3 s2.2.2.1 s2.2.2.2 1 2
  let ku4 := ku P s3.1 s3.2.1
  let kv4 := kv P s3.1 s3.2.1
  (fun c => uold c + P.dtime * sixth * (s3.2.2.1 c + ku4 c),
   fun c => vold c + P.dtime * sixth * (s3.2.2.2 c + kv4 c))

/-- Modelled from the spec's words (claim C2): the classical four-stage
Runge-Kutta update — stage derivatives `k1..k4` are the reaction terms plus
the 7-point Laplacian evaluated at `u_old`, `u_old + (dt/2)k1`,
`u_old + (dt/2)k2`, `u_old + dt*k3`, and the new state is the old state plus
`(dt/6)(k1 + 2k2 + 2k3 + k4)`. -/
def rk4_classical (P : FNParam) (u v : Cell → ℝ) : (Cell → ℝ) × (Cell → ℝ) :=
  let k1u := ku P u v
  let k1v := kv P u v
  let u2 := fun c => u c + P.dtime / 2 * k1u c
  let v2 := fun c => v c + P.dtime / 2 * k1v c
  let k2u := ku P u2 v2
  let k2v := kv P u2 v2
  let u3 := fun c => u c + P.dtime / 2 * k2u c
  let v3 := fun c => v c + P.dtime / 2 * k2v c
  let k3u := ku P u3 v3
  let k3v := kv P u3 v3
  let u4 := fun c => u c + P.dtime * k3u c
  let v4 := fun c => v c + P.dtime * k3v c
  let k4u := ku P u4 v4
  let k4v := kv P u4 v4
  (fun c => u c + P.dtime / 6 * (k1u c + 2 * k2u c + 2 * k3u c + k4u c),
   fun c => v c + P.dtime / 6 * (k1v c + 2 * k2v c + 2 * k3v c + k4v c))

/-! ## `uv_initialise` -/

/-- Modelled from the spec: the `FROM_KNOT_FILE` option tag of the missing
header; its numeric value is immaterial (only equality tests occur). -/
def FROM_KNOT_FILE : ℤ := 4

/-- The state `uv_initialise` assigns at one cell: `(u, v)` from `phi`, with
the fixed `(-0.4, -0.4)` baseline overwriting missed cells for knot-file
input. -/
def uv_initialise (opt : ℤ) (phi : Cell → ℝ) (missed : Cell → ℤ) (n : Cell) : ℝ × ℝ :=
  let u := 2 * Real.cos (phi n) - 0.4
  let v := Real.sin (phi n) - 0.4
  if opt = FROM_KNOT_FILE ∧ missed n = 1 then (-0.4, -0.4) else (u, v)

/-! ## Filament extractor: the seed scan of `find_knot_properties` -/

/-- `|grad u × grad v|` at a cell (`ucvmag` of the scan loop). -/
def ucvmag (ucvx ucvy ucvz : Cell → ℝ) (c : Cell) : ℝ :=
  Real.sqrt (ucvx c * ucvx c + ucvy c * ucvy c + ucvz c * ucvz c)

/-- All grid cells in the `i`-major, `j`-middle, `k`-minor order of the
source's triple loops. -/
def cellList (Nx Ny Nz : ℤ) : List Cell :=
  (List.range Nx.toNat).flatMap (fun i =>
    (List.range Ny.toNat).flatMap (fun j =>
      (List.range Nz.toNat).map (fun k => ((i : ℤ), (j : ℤ), (k : ℤ)))))

/-- One candidate cell of the seed scan: update the running maximum when the
cell has at least one unmarked stratum and strictly exceeds the current
maximum.  State is `(ucvmax, (imax, jmax, kmax))`. -/
def scan_step (ucvx ucvy ucvz : Cell → ℝ) (xm ym zm : ℤ → Bool) (st : ℝ × Cell) (c : Cell) :
    ℝ × Cell :=
  let mag := ucvmag ucvx ucvy ucvz c
  if (!xm c.1 || !ym c.2.1 || !zm c.2.2) ∧ st.1 < mag then (mag, c) else st

/-- The seed scan of `find_knot_properties` (lines 1118–1137): fold over all
cells starting from `ucvmax = -1`; `imax/jmax/kmax` are uninitialised in the
source and modelled as `(0,0,0)`.  The loop stops seeding when the returned
maximum is below `0.7`. -/
def find_knot_scan (Nx Ny Nz : ℤ) (ucvx ucvy ucvz : Cell → ℝ) (xm ym zm : ℤ → Bool) :
    ℝ × Cell :=
  (cellList Nx Ny Nz).foldl (scan_step ucvx ucvy ucvz xm ym zm) (-1, (0, 0, 0))

/-! ## Filament extractor: the curve-tracing loop -/

/-- A traced curve point (coordinates only). -/
abbrev Point : Type := ℝ × ℝ × ℝ

/-- The distance computed by the closure test
(`sqrt(xdiff*xdiff + ydiff*ydiff + zdiff*zdiff)`). -/
def dist3 (p q : Point) : ℝ :=
  Real.sqrt ((p.1 - q.1) * (p.1 - q.1) + (p.2.1 - q.2.1) * (p.2.1 - q.2.1)
    + (p.2.2 - q.2.2) * (p.2.2 - q.2.2))

/-- The curve-tracing `while(finish==false)` loop of `find_knot_properties`,
from iteration `s` on.  The field interpolation together with the GSL simplex
minimiser — an external library call — is abstracted as the oracle `np`
(the coordinates assigned to curve point `s`), and the two out-of-box `break`
checks (both happen before the point is appended) as the oracle `brk`.  The
loop control is the source's: after appending point `s`, finish when the new
point is within `3h` of the start after more than 10 points, or when
`s > 50000`. -/
def trace_from (np : ℕ → Point) (brk : ℕ → Bool) (h : ℝ) (start : Point) (s : ℕ) :
    List Point :=
  if brk s then []
  else
    let p := np s
    if hstop : (dist3 start p < 3 * h ∧ 10 < s) ∨ 50000 < s then [p]
    else p :: trace_from np brk h start (s + 1)
termination_by 50002 - s
decreasing_by
  push_neg at hstop
  omega

/-- A full traced curve: the seed point at index 0 followed by the loop from
`s = 1`. -/
def find_knot_trace (np : ℕ → Point) (brk : ℕ → Bool) (h : ℝ) (start : Point) : List Point :=
  start :: trace_from np brk h start 1

/-! ## `scalefunction` (geometry normaliser, `PRESERVE_RATIOS` build) -/

open scoped Classical in
/-- One iteration `i` of the minimum-factor search of `scalefunction`
(`if(scale[i] < minscale && nonzeroheight[i]) { imin = i; minscale = scale[i]; }`).
State is `(minscale, imin)`, the candidate is `(scale[i], nonzeroheight[i], i)`. -/
def minsel (st : ℝ × ℤ) (x : ℝ × Prop × ℤ) : ℝ × ℤ :=
  if x.1 < st.1 ∧ x.2.1 then (x.1, x.2.2) else st

/-- `scalefunction` with `PRESERVE_RATIOS` enabled: per-axis factors (sentinel
`1` and `nonzeroheight = false` for a degenerate axis), then the
minimum-factor search over `i = 0,1,2` starting from `minscale = 10^9`,
`imin = 3` (the source's loop, unrolled through `minsel`), equalising the
three factors only when `imin < 3`.  Returns `(scale, midpoint)`. -/
def scalefunction (xmax ymax zmax maxxin minxin maxyin minyin maxzin minzin : ℝ) :
    (ℝ × ℝ × ℝ) × (ℝ × ℝ × ℝ) :=
  let sc0 := if 0 < maxxin - minxin then xmax / (maxxin - minxin) else 1
  let sc1 := if 0 < maxyin - minyin then ymax / (maxyin - minyin) else 1
  let sc2 := if 0 < maxzin - minzin then zmax / (maxzin - minzin) else 1
  let st3 := minsel (minsel (minsel (1000000000, 3) (sc0, 0 < maxxin - minxin, 0))
    (sc1, 0 < maxyin - minyin, 1)) (sc2, 0 < maxzin - minzin, 2)
  let scales := if st3.2 < 3 then (st3.1, st3.1, st3.1) else (sc0, sc1, sc2)
  (scales, (0.5 * (maxxin + minxin), 0.5 * (maxyin + minyin), 0.5 * (maxzin + minzin)))

/-! ## Temporal correspondence selection (`find_knot_properties`, lines 1602–1610) -/

/-- One iteration `q` of the correspondence-selection loop.  State is
`(d, mindiff)`.  The source computes
`diff = abs(knotcurvesold[c].size() - knotcurves[d].size())` (note: `d`, not
`q`), compares it against `mindiff` (initially `-1`, so the comparison never
succeeds since `diff ≥ 0`), and then unconditionally sets `d = q`. -/
def select_step (oldSize : ℕ) (sizes : List ℕ) (st : ℕ × ℝ) (q : ℕ) : ℕ × ℝ :=
  let diff : ℝ := |(oldSize : ℝ) - (sizes.getD st.1 0 : ℝ)|
  let md := if diff < st.2 then diff else st.2
  (q, md)

/-- The correspondence selection: the index `d` of the current-timestep
component chosen for a previous component of `oldSize` points. -/
def find_correspondence (oldSize : ℕ) (sizes : List ℕ) : ℕ :=
  ((List.range sizes.length).foldl (select_step oldSize sizes) (0, -1)).1

/-! ## The path-finder `pathfind` -/

/-- The read-only data `pathfind` works over: the grid sizes, the exclusion
mask passed for this pass, and the vector field with its magnitude. -/
structure PFCtx where
  Nx : ℤ
  Ny : ℤ
  Nz : ℤ
  ignore : Cell → ℤ
  Bx : Cell → ℝ
  By : Cell → ℝ
  Bz : Cell → ℝ
  Bmag : Cell → ℝ

/-- The length bound `Nx+Ny+Nz` of the walk. -/
def pfBound (ctx : PFCtx) : ℤ := ctx.Nx + ctx.Ny + ctx.Nz

/-- The in-box test of the neighbour scan
(`pi[t]+ip<Nx && pi[t]+ip>0 && …`, strict on both sides). -/
def inBox (ctx : PFCtx) (c : Cell) : Prop :=
  c.1 < ctx.Nx ∧ 0 < c.1 ∧ c.2.1 < ctx.Ny ∧ 0 < c.2.1 ∧ c.2.2 < ctx.Nz ∧ 0 < c.2.2

instance (ctx : PFCtx) (c : Cell) : Decidable (inBox ctx c) := by
  unfold inBox
  infer_instance

/-- Componentwise cell addition. -/
def addc (c o : Cell) : Cell := (c.1 + o.1, c.2.1 + o.2.1, c.2.2 + o.2.2)

/-- The componentwise diagonal step direction `(sign di, sign dj, sign dk)`. -/
def signv (d : Cell) : Cell := (sign d.1, sign d.2.1, sign d.2.2)

/-- The 27 neighbour offsets in the source's scan order
(`ip`, then `jp`, then `kp`, each `-1,0,1`). -/
def offsets : List Cell :=
  ([-1, 0, 1] : List ℤ).flatMap (fun ip =>
    ([-1, 0, 1] : List ℤ).flatMap (fun jp =>
      ([-1, 0, 1] : List ℤ).map (fun kp => (ip, jp, kp))))

/-- Integer dot product of two cells, as a real. -/
def dotc (a b : Cell) : ℝ := ((a.1 * b.1 + a.2.1 * b.2.1 + a.2.2 * b.2.2 : ℤ) : ℝ)

/-- `sqrt(a1*a1 + a2*a2 + a3*a3)` for an integer vector. -/
def normc (a : Cell) : ℝ := Real.sqrt ((a.1 * a.1 + a.2.1 * a.2.1 + a.2.2 * a.2.2 : ℤ) : ℝ)

/-- The state of one neighbour scan: the running maximum `MAX`, the stored
best offset `(io,jo,ko)`, the `go` flag and the (mutated) `track` array. -/
structure ScanSt where
  MAX : ℝ
  sel : Cell
  go : Bool
  track : Cell → ℤ

/-- One candidate `(ip,jp,kp)` of the neighbour scan.  `stop` is `1` outside
the box, else `ignore[np] + track[np]`; a viable candidate sets `go`, and a
candidate beating `MAX` is stored and marks the *current* cell in `track`.
For the offset `(0,0,0)` the source's `weight1`/`weight2` are `0.0/0.0 = NaN`
(never beating `MAX`); here real division by zero yields `0` instead — the
divergence is immaterial to the theorems below, which hold for any choice
among viable candidates. -/
def scan_cand (ctx : PFCtx) (cur d : Cell) (st : ScanSt) (o : Cell) : ScanSt :=
  let np := addc cur o
  let stop : ℤ := if inBox ctx np then ctx.ignore np + st.track np else 1
  if stop = 0 then
    let weight1 := dotc d o / (normc d * normc o)
    let weight2 := (ctx.Bx np * (o.1 : ℝ) + ctx.By np * (o.2.1 : ℝ) + ctx.Bz np * (o.2.2 : ℝ))
      / (ctx.Bmag np * normc o)
    if st.MAX < weight1 + weight2 then
      { MAX := weight1 + weight2, sel := o, go := true, track := Function.update st.track cur 1 }
    else { st with go := true }
  else st

/-- A full neighbour scan (`MAX = -10`, all 27 candidates in order).  `sel0`
is the incoming `(io,jo,ko)`, which persists across scans in the source. -/
def pf_scan (ctx : PFCtx) (cur d : Cell) (track : Cell → ℤ) (sel0 : Cell) : ScanSt :=
  offsets.foldl (scan_cand ctx cur d) { MAX := -10, sel := sel0, go := false, track := track }

/-- A scan candidate is viable (`stop == 0`): in the box, not excluded, and
not visited, relative to the `track` array the scan started from. -/
def scanPass (ctx : PFCtx) (cur : Cell) (track : Cell → ℤ) (o : Cell) : Prop :=
  inBox ctx (addc cur o) ∧ ctx.ignore (addc cur o) + track (addc cur o) = 0

/-- Invariant of the partially executed neighbour scan: either nothing viable
has been seen yet (`go` unset, `track` and `MAX` untouched), or a viable
candidate has been selected, the current cell has been marked in `track`, and
the stored offset is a viable candidate. -/
def scanQ (ctx : PFCtx) (cur : Cell) (track : Cell → ℤ) (st : ScanSt) : Prop :=
  (st.go = false ∧ st.track = track ∧ st.MAX = -10)
  ∨ (st.go = true ∧ st.track = Function.update track cur 1
      ∧ st.sel ∈ offsets ∧ inBox ctx (addc cur st.sel)
      ∧ ctx.ignore (addc cur st.sel) = 0 ∧ track (addc cur st.sel) = 0)

/-- The mutable state of the `pathfind` walk: the position `t`, the path
arrays `pi/pj/pk`, the visited-mask `track`, and the persisting best offset
`(io,jo,ko)` (uninitialised in the source, modelled as `(0,0,0)`). -/
structure PFState where
  t : ℕ
  path : ℕ → Cell
  track : Cell → ℤ
  sel : Cell

/-- Which exit of `pathfind` produced the result: the walk arrived at the
target (loop guard), the step count reached the bound (loop guard plus the
`if(t==Nx+Ny+Nz) t=0` fix-up), or the neighbour scan failed while at step 0
(the in-loop `return 0`). -/
inductive PFReason where
  | reachedTarget
  | hitBound
  | noViableAtZero

/-- The result of `pathfind`: the returned length `t`, the filled path
arrays, and which exit produced it. -/
structure PFOut where
  len : ℕ
  path : ℕ → Cell
  reason : PFReason

/-- The distance-to-target `(di, dj, dk)` as recomputed at the top of every
iteration. -/
def pfD (tgt : Cell) (st : PFState) : Cell :=
  (tgt.1 - (st.path st.t).1, tgt.2.1 - (st.path st.t).2.1, tgt.2.2 - (st.path st.t).2.2)

/-- The direct-route cell `nu = (pi[t]+sign(di), pj[t]+sign(dj), pk[t]+sign(dk))`. -/
def pfNu (tgt : Cell) (st : PFState) : Cell := addc (st.path st.t) (signv (pfD tgt st))

/-- The state after a direct diagonal step: move to `nu` and mark it
visited. -/
def pfDirectSt (tgt : Cell) (st : PFState) : PFState :=
  { t := st.t + 1, path := Function.update st.path (st.t + 1) (pfNu tgt st),
    track := Function.update st.track (pfNu tgt st) 1, sel := st.sel }

/-- The neighbour scan performed when the direct route is blocked. -/
def pfScanRes (ctx : PFCtx) (tgt : Cell) (st : PFState) : ScanSt :=
  pf_scan ctx (st.path st.t) (pfD tgt st) st.track st.sel

/-- The state after moving to the scan's stored best neighbour. -/
def pfScanSt (ctx : PFCtx) (tgt : Cell) (st : PFState) : PFState :=
  { t := st.t + 1,
    path := Function.update st.path (st.t + 1)
      (addc (st.path st.t) (pfScanRes ctx tgt st).sel),
    track := (pfScanRes ctx tgt st).track, sel := (pfScanRes ctx tgt st).sel }

/-- The state after backtracking one step (`t--`). -/
def pfBackSt (ctx : PFCtx) (tgt : Cell) (st : PFState) : PFState :=
  { t := st.t - 1, path := st.path, track := (pfScanRes ctx tgt st).track,
    sel := (pfScanRes ctx tgt st).sel }

/-- The `while (t<Nx+Ny+Nz && (abs(di)>0 || abs(dj)>0 || abs(dk)>0))` loop of
`pathfind`, with explicit fuel (`none` = fuel exhausted; `pathfind_fuel`
below always suffices, see the totality theorem).  Each iteration: try the
straight diagonal step; otherwise scan the 26 neighbours; otherwise return 0
at step 0 or backtrack. -/
def pf_go (ctx : PFCtx) (tgt : Cell) : ℕ → PFState → Option PFOut
  | 0, _ => none
  | fuel + 1, st =>
    if pfBound ctx ≤ (st.t : ℤ) then
      some ⟨if (st.t : ℤ) = pfBound ctx then 0 else st.t, st.path, .hitBound⟩
    else if st.path st.t = tgt then some ⟨st.t, st.path, .reachedTarget⟩
    else if ctx.ignore (pfNu tgt st) + st.track (pfNu tgt st) = 0 then
      pf_go ctx tgt fuel (pfDirectSt tgt st)
    else if (pfScanRes ctx tgt st).go then pf_go ctx tgt fuel (pfScanSt ctx tgt st)
    else if st.t = 0 then some ⟨0, st.path, .noViableAtZero⟩
    else pf_go ctx tgt fuel (pfBackSt ctx tgt st)

/-- The initial `pathfind` state: `pi[0]=i0, pj[0]=j0, pk[0]=k0`, `track`
zero-filled; the unwritten path entries (uninitialised in the source) are
modelled as `(0,0,0)`. -/
def pf_init (start : Cell) : PFState :=
  { t := 0, path := Function.update (fun _ => (0, 0, 0)) 0 start,
    track := fun _ => 0, sel := (0, 0, 0) }

/-- Fuel that provably always suffices for `pf_go` (any value at least the
termination measure of the initial state works; the result does not depend
on it). -/
def pathfind_fuel (ctx : PFCtx) : ℕ :=
  ((pfBound ctx).toNat + 2) * ((ctx.Nx * ctx.Ny * ctx.Nz).toNat + 1) + 1

/-- `pathfind(i0,j0,k0,ie,je,ke,…)`. -/
def pathfind (ctx : PFCtx) (start tgt : Cell) : Option PFOut :=
  pf_go ctx tgt (pathfind_fuel ctx) (pf_init start)

/-- A cell lying in the index ranges of the grid arrays
(`0 ≤ i < Nx`, `0 ≤ j < Ny`, `0 ≤ k < Nz`). -/
def inGrid (ctx : PFCtx) (c : Cell) : Prop :=
  0 ≤ c.1 ∧ c.1 < ctx.Nx ∧ 0 ≤ c.2.1 ∧ c.2.1 < ctx.Ny ∧ 0 ≤ c.2.2 ∧ c.2.2 < ctx.Nz

/-- Two consecutive path cells differ by at most `1` in each index. -/
def adjStep (a b : Cell) : Prop :=
  |b.1 - a.1| ≤ 1 ∧ |b.2.1 - a.2.1| ≤ 1 ∧ |b.2.2 - a.2.2| ≤ 1

/-- The grid cells as a finite set (for the termination measure). -/
def boxFinset (ctx : PFCtx) : Finset Cell :=
  Finset.Icc 0 (ctx.Nx - 1) ×ˢ Finset.Icc 0 (ctx.Ny - 1) ×ˢ Finset.Icc 0 (ctx.Nz - 1)

/-- The number of grid cells not yet visited by the walk. -/
def untracked (ctx : PFCtx) (track : Cell → ℤ) : ℕ :=
  ((boxFinset ctx).filter (fun c => track c = 0)).card

/-- Termination measure of the `pathfind` loop: every iteration (diagonal
step, scan step or backtrack) strictly decreases it. -/
def pfMeasure (ctx : PFCtx) (st : PFState) : ℕ :=
  ((pfBound ctx).toNat + 2) * untracked ctx st.track
    + (if st.track (st.path st.t) = 0 then 0 else st.t + 1)

/-- The loop invariant of the `pathfind` walk. -/
structure PFInv (ctx : PFCtx) (start : Cell) (st : PFState) : Prop where
  path0 : st.path 0 = start
  inb : ∀ s, s ≤ st.t → inGrid ctx (st.path s)
  adj : ∀ s, s < st.t → adjStep (st.path s) (st.path (s + 1))
  ign : ∀ s, 1 ≤ s → s ≤ st.t → ctx.ignore (st.path s) = 0
  track01 : ∀ c, st.track c = 0 ∨ st.track c = 1
  tbound : (st.t : ℤ) ≤ pfBound ctx
  posOK : ∀ s, s ≤ st.t → st.track (st.path s) = 0 →
    s = 0 ∨ (inBox ctx (st.path s) ∧ ctx.ignore (st.path s) = 0)

/-! ## `phi_calc_B` (scalar potential by path integration) -/

/-- The mutable state of `phi_calc_B`: the `phi` and `missed` arrays. -/
structure BState where
  phi : Cell → ℝ
  missed : Cell → ℤ

/-- One step `t` of the path walk of `phi_calc_B`
(the `for(t=1;t<=pathlength;t++)` body): integrate the midpoint field value
along the step, clear `missed`, and wrap the stored phase. -/
def phi_walk_step (h : ℝ) (Bx By Bz : Cell → ℝ) (p : ℕ → Cell) (st : BState) (t : ℕ) :
    BState :=
  let nt := p t
  let ntm := p (t - 1)
  let Bxmid := 0.5 * (Bx nt + Bx ntm)
  let Bymid := 0.5 * (By nt + By ntm)
  let Bzmid := 0.5 * (Bz nt + Bz ntm)
  let inc := h * (Bxmid * ((nt.1 - ntm.1 : ℤ) : ℝ) + Bymid * ((nt.2.1 - ntm.2.1 : ℤ) : ℝ)
    + Bzmid * ((nt.2.2 - ntm.2.2 : ℤ) : ℝ))
  { phi := Function.update st.phi nt (wrap (st.phi ntm + inc)),
    missed := Function.update st.missed nt 0 }

/-- The whole path walk: steps `t = 1 … pathlength` in order. -/
def phi_walk (h : ℝ) (Bx By Bz : Cell → ℝ) (p : ℕ → Cell) (len : ℕ) (st : BState) : BState :=
  (List.range' 1 len).foldl (phi_walk_step h Bx By Bz p) st

/-- The per-target-cell body shared by both sweeps of `phi_calc_B`: if the
cell is still missed and not excluded by this sweep's mask, find a path from
the base and integrate along it (a `none` path-finder result — fuel
exhaustion, which provably does not occur — leaves the state unchanged, like
a zero-length path). -/
def phi_B_cell (ctx : PFCtx) (base : Cell) (h : ℝ) (st : BState) (c : Cell) : BState :=
  if st.missed c = 1 ∧ ctx.ignore c = 0 then
    match pathfind ctx base c with
    | some o => phi_walk h ctx.Bx ctx.By ctx.Bz o.path o.len st
    | none => st
  else st

/-- The cells of the first sweep of `phi_calc_B`, in source order: half-grid
indices `id, jd, kd` from the corners inward, the eight corners via
`c1, c2, c3 ∈ {0,1}` innermost. -/
def sweep1_cells (Nx Ny Nz : ℤ) : List Cell :=
  (List.range ((Nx + 1) / 2).toNat).flatMap (fun id =>
    (List.range ((Ny + 1) / 2).toNat).flatMap (fun jd =>
      (List.range ((Nz + 1) / 2).toNat).flatMap (fun kd =>
        ([0, 1] : List ℕ).flatMap (fun c1 =>
          ([0, 1] : List ℕ).flatMap (fun c2 =>
            ([0, 1] : List ℕ).map (fun c3 =>
              (if c1 = 0 then (id : ℤ) else Nx - 1 - id,
               if c2 = 0 then (jd : ℤ) else Ny - 1 - jd,
               if c3 = 0 then (kd : ℤ) else Nz - 1 - kd)))))))

/-- `phi_calc_B`: seed the base cell `((Nx+1)/2, (Ny+1)/2, (Nz+1)/2)` with
`phi = 0`, `missed = 0`, then sweep 1 (mask `ignore`) over the corner-inward
cell order, then sweep 2 (mask `ignore1`) over all cells. -/
def phi_calc_B (Nx Ny Nz : ℤ) (h : ℝ) (Bx By Bz Bmag : Cell → ℝ)
    (ignore ignore1 : Cell → ℤ) (st0 : BState) : BState :=
  let base : Cell := ((Nx + 1) / 2, (Ny + 1) / 2, (Nz + 1) / 2)
  let st1 : BState := { phi := Function.update st0.phi base 0,
                        missed := Function.update st0.missed base 0 }
  let ctx1 : PFCtx := ⟨Nx, Ny, Nz, ignore, Bx, By, Bz, Bmag⟩
  let ctx2 : PFCtx := ⟨Nx, Ny, Nz, ignore1, Bx, By, Bz, Bmag⟩
  let st2 := (sweep1_cells Nx Ny Nz).foldl (phi_B_cell ctx1 base h) st1
  (cellList Nx Ny Nz).foldl (phi_B_cell ctx2 base h) st2

/-- A small concrete context on a `2 x 2 x 2` grid (uniform unit field along
`x`, nothing excluded), used for concrete path-finder evaluations. -/
def ctxEx : PFCtx :=
  { Nx := 2, Ny := 2, Nz := 2, ignore := fun _ => 0,
    Bx := fun _ => 1, By := fun _ => 0, Bz := fun _ => 0, Bmag := fun _ => 1 }

/-! # Theorems

First the general lemmas about the definitions above, then the claim theorems
with their witnesses and counterexamples. -/

/-! ## Wrapping lemmas -/

theorem wrapDown_le (x : ℝ) : wrapDown x ≤ Real.pi := by
  induction x using wrapDown.induct with
  | case1 x hx ih =>
    rw [wrapDown]
    simpa [hx] using ih
  | case2 x hx =>
    rw [wrapDown]
    simp only [dif_neg hx]
    exact le_of_not_lt hx

theorem wrapDown_eq_of_le (x : ℝ) (hx : x ≤ Real.pi) : wrapDown x = x := by
  rw [wrapDown]
  simp [not_lt.mpr hx]

theorem wrapUp_ge (x : ℝ) : -Real.pi ≤ wrapUp x := by
  induction x using wrapUp.induct with
  | case1 x hx ih =>
    rw [wrapUp]
    simpa [hx] using ih
  | case2 x hx =>
    rw [wrapUp]
    simp only [dif_neg hx]
    exact le_of_not_lt hx

theorem wrapUp_le (x : ℝ) (hx : x ≤ Real.pi) : wrapUp x ≤ Real.pi := by
  revert hx
  induction x using wrapUp.induct with
  | case1 x hlt ih =>
    intro hx
    rw [wrapUp]
    simp only [dif_pos hlt]
    have hpi := Real.pi_pos
    exact ih (by linarith)
  | case2 x hlt =>
    intro hx
    rw [wrapUp]
    simp only [dif_neg hlt]
    exact hx

theorem wrapUp_eq_of_ge (x : ℝ) (hx : -Real.pi ≤ x) : wrapUp x = x := by
  rw [wrapUp]
  simp [not_lt.mpr hx]

theorem wrap_mem_Icc (x : ℝ) : wrap x ∈ Set.Icc (-Real.pi) Real.pi :=
  ⟨wrapUp_ge _, wrapUp_le _ (wrapDown_le x)⟩

theorem wrap_eq_of_mem (x : ℝ) (hx : x ∈ Set.Icc (-Real.pi) Real.pi) : wrap x = x := by
  unfold wrap
  rw [wrapDown_eq_of_le x hx.2, wrapUp_eq_of_ge x hx.1]

theorem wrap_idem (x : ℝ) : wrap (wrap x) = wrap x :=
  wrap_eq_of_mem _ (wrap_mem_Icc x)

/-! ## `phi_calc_B` write lemmas -/

/-- Folding any `BState` step that either keeps a `phi` entry or writes a
wrapped value preserves that property. -/
theorem bfold_phi_pres {α : Type} (f : BState → α → BState)
    (hf : ∀ st a c, (f st a).phi c = st.phi c
      ∨ (f st a).phi c ∈ Set.Icc (-Real.pi) Real.pi) :
    ∀ (l : List α) (st : BState) (c : Cell),
      (l.foldl f st).phi c = st.phi c
        ∨ (l.foldl f st).phi c ∈ Set.Icc (-Real.pi) Real.pi := by
  intro l
  induction l with
  | nil => intro st c; exact Or.inl rfl
  | cons a l ih =>
    intro st c
    rw [List.foldl_cons]
    rcases ih (f st a) c with h | h
    · rw [h]
      exact hf st a c
    · exact Or.inr h

theorem phi_walk_step_phi_pres (h : ℝ) (Bx By Bz : Cell → ℝ) (p : ℕ → Cell)
    (st : BState) (t : ℕ) (c : Cell) :
    (phi_walk_step h Bx By Bz p st t).phi c = st.phi c
      ∨ (phi_walk_step h Bx By Bz p st t).phi c ∈ Set.Icc (-Real.pi) Real.pi := by
  unfold phi_walk_step
  by_cases hc : c = p t
  · subst hc
    right
    simp only [Function.update_same]
    exact wrap_mem_Icc _
  · left
    simp only [Function.update_noteq hc]

theorem phi_B_cell_phi_pres (ctx : PFCtx) (base : Cell) (h : ℝ) (st : BState) (a : Cell)
    (c : Cell) :
    (phi_B_cell ctx base h st a).phi c = st.phi c
      ∨ (phi_B_cell ctx base h st a).phi c ∈ Set.Icc (-Real.pi) Real.pi := by
  unfold phi_B_cell
  split
  · cases hp : pathfind ctx base a with
    | none => exact Or.inl rfl
    | some o =>
      exact bfold_phi_pres _ (fun st t c => phi_walk_step_phi_pres h ctx.Bx ctx.By ctx.Bz o.path st t c) _ st c
  · exact Or.inl rfl

/-! ## Claim C1 -/

/-- C1 (amended): every phase value stored by the scalar-potential
construction — by `phi_calc` for surface input, by `phi_calc_manual`, and by
the path-integrated `phi_calc_B` at every cell it writes — lies in the
*closed* interval `[-π, π]`, and the wrapping step is idempotent. -/
theorem c1_phase_values_wrapped :
    (∀ x : ℝ, wrap x ∈ Set.Icc (-Real.pi) Real.pi ∧ wrap (wrap x) = wrap x)
    ∧ (∀ (x y z : ℤ → ℝ) (ks : List triangle) (i j k : ℤ),
        phi_calc x y z ks i j k ∈ Set.Icc (-Real.pi) Real.pi)
    ∧ (∀ (x y z : ℤ → ℝ) (lam : ℝ) (i j k : ℤ),
        phi_calc_manual x y z lam i j k ∈ Set.Icc (-Real.pi) Real.pi)
    ∧ (∀ (Nx Ny Nz : ℤ) (h : ℝ) (Bx By Bz Bmag : Cell → ℝ) (ignore ignore1 : Cell → ℤ)
        (st0 : BState) (c : Cell),
        (phi_calc_B Nx Ny Nz h Bx By Bz Bmag ignore ignore1 st0).phi c = st0.phi c
          ∨ (phi_calc_B Nx Ny Nz h Bx By Bz Bmag ignore ignore1 st0).phi c
              ∈ Set.Icc (-Real.pi) Real.pi) := by
  refine ⟨fun x => ⟨wrap_mem_Icc x, wrap_idem x⟩, fun _ _ _ _ _ _ _ => wrap_mem_Icc _,
    fun _ _ _ _ _ _ _ => wrap_mem_Icc _, ?_⟩
  intro Nx Ny Nz h Bx By Bz Bmag ignore ignore1 st0 c
  unfold phi_calc_B
  have hbase := Real.pi_pos
  have h2 := bfold_phi_pres (phi_B_cell ⟨Nx, Ny, Nz, ignore1, Bx, By, Bz, Bmag⟩
      ((Nx + 1) / 2, (Ny + 1) / 2, (Nz + 1) / 2) h)
    (fun st a c => phi_B_cell_phi_pres _ _ _ st a c) (cellList Nx Ny Nz)
  have h1 := bfold_phi_pres (phi_B_cell ⟨Nx, Ny, Nz, ignore, Bx, By, Bz, Bmag⟩
      ((Nx + 1) / 2, (Ny + 1) / 2, (Nz + 1) / 2) h)
    (fun st a c => phi_B_cell_phi_pres _ _ _ st a c) (sweep1_cells Nx Ny Nz)
  rcases h2 _ c with he | hm
  · rw [he]
    rcases h1 _ c with he1 | hm1
    · rw [he1]
      by_cases hc : c = ((Nx + 1) / 2, (Ny + 1) / 2, (Nz + 1) / 2)
      · subst hc
        right
        simp only [Function.update_same]
        constructor <;> [linarith; linarith]
      · left
        simp only [Function.update_noteq hc]
    · exact Or.inr hm1
  · exact Or.inr hm

/-- C1 counterexample: the claim's strict interval `(-π, π]` fails — for a
concrete one-triangle surface (centre `(1,0,0)`, normal `(-π,0,0)`, area `2`)
at a grid point at the origin, `phi_calc` stores exactly `-π`. -/
theorem c1_strict_interval_fails :
    phi_calc (fun _ => 0) (fun _ => 0) (fun _ => 0)
        [⟨(1, 0, 0), (-Real.pi, 0, 0), 2⟩] 0 0 0 = -Real.pi
    ∧ phi_calc (fun _ => 0) (fun _ => 0) (fun _ => 0)
        [⟨(1, 0, 0), (-Real.pi, 0, 0), 2⟩] 0 0 0 ∉ Set.Ioc (-Real.pi) Real.pi := by
  have hterm : phi_calc_term 0 0 0 ⟨(1, 0, 0), (-Real.pi, 0, 0), 2⟩ = -Real.pi := by
    unfold phi_calc_term
    norm_num
    ring
  have hval : phi_calc (fun _ => 0) (fun _ => 0) (fun _ => 0)
      [⟨(1, 0, 0), (-Real.pi, 0, 0), 2⟩] 0 0 0 = -Real.pi := by
    unfold phi_calc
    rw [List.map_singleton, List.sum_singleton, hterm]
    exact wrap_eq_of_mem _ ⟨le_refl _, by linarith [Real.pi_pos]⟩
  refine ⟨hval, ?_⟩
  rw [hval]
  intro hmem
  exact absurd hmem.1 (lt_irrefl _)

/-! ## Claim C4 -/

/-- C4: for knot-file input, `uv_initialise` assigns every missed cell the
fixed baseline `(-0.4, -0.4)` independently of `phi`, and every non-missed
cell a state that is a function of its own `phi` value only. -/
theorem c4_missed_cells_baseline :
    ∀ (phi phi' : Cell → ℝ) (missed : Cell → ℤ) (n : Cell),
      (missed n = 1 →
        uv_initialise FROM_KNOT_FILE phi missed n = (-0.4, -0.4)
          ∧ uv_initialise FROM_KNOT_FILE phi missed n
              = uv_initialise FROM_KNOT_FILE phi' missed n)
      ∧ (missed n ≠ 1 →
        uv_initialise FROM_KNOT_FILE phi missed n
          = (2 * Real.cos (phi n) - 0.4, Real.sin (phi n) - 0.4)) := by
  intro phi phi' missed n
  constructor
  · intro hm
    unfold uv_initialise
    simp [hm]
  · intro hm
    unfold uv_initialise
    simp [hm]

/-- Witness for C4 at a concrete instance. -/
theorem c4_missed_cells_baseline_witness :
    (fun _ : Cell => (1 : ℤ)) ((0 : ℤ), (0 : ℤ), (0 : ℤ)) = 1
      ∧ uv_initialise FROM_KNOT_FILE (fun _ => 0) (fun _ => 1) (0, 0, 0) = (-0.4, -0.4) :=
  ⟨rfl, ((c4_missed_cells_baseline (fun _ => 0) (fun _ => 37) (fun _ => 1) (0, 0, 0)).1 rfl).1⟩

/-! ## Claim C10 -/

/-- C10: after `uv_initialise`, every cell state is bounded:
`u ∈ [-2.4, 1.6]` and `v ∈ [-1.4, 0.6]`, for every option, phase field and
missed flag (the missed-cell baseline lies inside these ranges). -/
theorem c10_uv_initialise_bounded :
    ∀ (opt : ℤ) (phi : Cell → ℝ) (missed : Cell → ℤ) (n : Cell),
      (uv_initialise opt phi missed n).1 ∈ Set.Icc (-2.4 : ℝ) 1.6
      ∧ (uv_initialise opt phi missed n).2 ∈ Set.Icc (-1.4 : ℝ) 0.6 := by
  intro opt phi missed n
  have hc1 := Real.neg_one_le_cos (phi n)
  have hc2 := Real.cos_le_one (phi n)
  have hs1 := Real.neg_one_le_sin (phi n)
  have hs2 := Real.sin_le_one (phi n)
  unfold uv_initialise
  split
  · constructor <;> constructor <;> norm_num
  · constructor <;> constructor <;> simp <;> nlinarith

/-! ## Claim C8 -/

/-- C8: evaluating the correspondence selection at the failing input — a
previous component of 5 points against current components of sizes
`[5, 100]` — returns index `1` (the last component), not the point-count
minimiser `0`: the `mindiff` comparison starts at `-1` and never succeeds,
and `d = q` runs unconditionally. -/
theorem c8_selects_last_component :
    find_correspondence 5 [5, 100] = 1 ∧ |(5 : ℝ) - 5| < |(5 : ℝ) - 100| := by
  constructor
  · unfold find_correspondence
    have hr : List.range 2 = [0, 1] := rfl
    rw [show ([5, 100] : List ℕ).length = 2 from rfl, hr]
    simp only [List.foldl_cons, List.foldl_nil]
    unfold select_step
    norm_num
  · norm_num

/-! ## Claim C2 -/

/-- C2: one `uv_update` timestep on the full grid is exactly the classical
four-stage Runge-Kutta update for both fields: stage derivatives `k1..k4`
from the reaction terms plus the 7-point Laplacian at
`u_old`, `u_old+(dt/2)k1`, `u_old+(dt/2)k2`, `u_old+dt*k3`, and every cell's
new state is the old state plus `(dt/6)(k1+2k2+2k3+k4)`. -/
theorem c2_uv_update_is_rk4 :
    ∀ (P : FNParam) (u v : Cell → ℝ), uv_update P u v = rk4_classical P u v := by
  intro P u v
  have h05 : ∀ f g : Cell → ℝ,
      (fun c => f c + P.dtime * 0.5 * g c) = fun c => f c + P.dtime / 2 * g c := by
    intro f g
    funext c
    ring
  have h11 : ∀ f g : Cell → ℝ,
      (fun c => f c + P.dtime * 1 * g c) = fun c => f c + P.dtime * g c := by
    intro f g
    funext c
    ring
  simp only [uv_update, rk4_classical, uv_add, sixth, h05, h11, Prod.mk.injEq]
  constructor <;> funext c <;> ring

/-! ## Claim C7 -/

/-- `minsel` never increases the running minimum. -/
theorem minsel_fst_le (st : ℝ × ℤ) (x : ℝ × Prop × ℤ) : (minsel st x).1 ≤ st.1 := by
  unfold minsel
  split_ifs with h
  · exact le_of_lt h.1
  · exact le_refl _

/-- For a candidate with nonzero extent, the running minimum ends up at most
the candidate factor. -/
theorem minsel_fst_le_cand (st : ℝ × ℤ) (f : ℝ) (A : Prop) (i : ℤ) (hx : A) :
    (minsel st (f, A, i)).1 ≤ f := by
  unfold minsel
  split_ifs with h
  · exact le_refl _
  · exact le_of_not_lt (fun hlt => h ⟨hlt, hx⟩)

/-- `minsel` either selects the candidate (which then had nonzero extent) or
keeps the state. -/
theorem minsel_cases (st : ℝ × ℤ) (f : ℝ) (A : Prop) (i : ℤ) :
    (minsel st (f, A, i) = (f, i) ∧ A) ∨ minsel st (f, A, i) = st := by
  unfold minsel
  split_ifs with h
  · exact Or.inl ⟨rfl, h.2⟩
  · exact Or.inr rfl

/-- C7 (amended): with aspect-ratio preservation enabled, *whenever some axis
with nonzero input extent has its per-axis factor below the `10^9` search
sentinel*, `scalefunction` returns three equal factors, each equal to the
minimum of the per-axis factors over the axes with nonzero input extent. -/
theorem c7_preserve_ratio_min :
    ∀ xmax ymax zmax mxx mnx mxy mny mxz mnz : ℝ,
      ((0 < mxx - mnx ∧ xmax / (mxx - mnx) < 1000000000)
        ∨ (0 < mxy - mny ∧ ymax / (mxy - mny) < 1000000000)
        ∨ (0 < mxz - mnz ∧ zmax / (mxz - mnz) < 1000000000)) →
      ∃ m : ℝ,
        (scalefunction xmax ymax zmax mxx mnx mxy mny mxz mnz).1 = (m, m, m)
        ∧ (0 < mxx - mnx → m ≤ xmax / (mxx - mnx))
        ∧ (0 < mxy - mny → m ≤ ymax / (mxy - mny))
        ∧ (0 < mxz - mnz → m ≤ zmax / (mxz - mnz))
        ∧ ((0 < mxx - mnx ∧ m = xmax / (mxx - mnx))
            ∨ (0 < mxy - mny ∧ m = ymax / (mxy - mny))
            ∨ (0 < mxz - mnz ∧ m = zmax / (mxz - mnz))) := by
  intro xmax ymax zmax mxx mnx mxy mny mxz mnz H
  simp only [scalefunction]
  set f0 := xmax / (mxx - mnx) with hf0
  set f1 := ymax / (mxy - mny) with hf1
  set f2 := zmax / (mxz - mnz) with hf2
  set A0 := 0 < mxx - mnx with hA0
  set A1 := 0 < mxy - mny with hA1
  set A2 := 0 < mxz - mnz with hA2
  set sc0 := if A0 then f0 else (1 : ℝ) with hsc0
  set sc1 := if A1 then f1 else (1 : ℝ) with hsc1
  set sc2 := if A2 then f2 else (1 : ℝ) with hsc2
  set s1 := minsel (1000000000, 3) (sc0, A0, 0) with hs1
  set s2 := minsel s1 (sc1, A1, 1) with hs2
  set s3 := minsel s2 (sc2, A2, 2) with hs3
  have le32 : s3.1 ≤ s2.1 := minsel_fst_le _ _
  have le21 : s2.1 ≤ s1.1 := minsel_fst_le _ _
  have le10 : s1.1 ≤ 1000000000 := minsel_fst_le _ _
  have le0 : A0 → s1.1 ≤ f0 := by
    intro hA
    rw [hs1, hsc0, if_pos hA]
    exact minsel_fst_le_cand _ f0 A0 0 hA
  have le1 : A1 → s2.1 ≤ f1 := by
    intro hA
    rw [hs2, hsc1, if_pos hA]
    exact minsel_fst_le_cand _ f1 A1 1 hA
  have le2 : A2 → s3.1 ≤ f2 := by
    intro hA
    rw [hs3, hsc2, if_pos hA]
    exact minsel_fst_le_cand _ f2 A2 2 hA
  have hsmall : s3.1 < 1000000000 := by
    rcases H with ⟨hA, hB⟩ | ⟨hA, hB⟩ | ⟨hA, hB⟩
    · have := le0 hA
      linarith
    · have := le1 hA
      linarith
    · exact lt_of_le_of_lt (le2 hA) hB
  have hprov : (A0 ∧ s3.1 = f0) ∨ (A1 ∧ s3.1 = f1) ∨ (A2 ∧ s3.1 = f2) := by
    rcases minsel_cases s2 sc2 A2 2 with ⟨he, hA⟩ | he
    · refine Or.inr (Or.inr ⟨hA, ?_⟩)
      rw [hs3, he]
      show sc2 = f2
      rw [hsc2, if_pos hA]
    · rcases minsel_cases s1 sc1 A1 1 with ⟨he1, hA⟩ | he1
      · refine Or.inr (Or.inl ⟨hA, ?_⟩)
        rw [hs3, he, hs2, he1]
        show sc1 = f1
        rw [hsc1, if_pos hA]
      · rcases minsel_cases (1000000000, 3) sc0 A0 0 with ⟨he0, hA⟩ | he0
        · refine Or.inl ⟨hA, ?_⟩
          rw [hs3, he, hs2, he1, hs1, he0]
          show sc0 = f0
          rw [hsc0, if_pos hA]
        · exfalso
          rw [hs3, he, hs2, he1, hs1, he0] at hsmall
          norm_num at hsmall
  have hidx : s3.2 < 3 := by
    rcases minsel_cases s2 sc2 A2 2 with ⟨he, _⟩ | he
    · rw [hs3, he]
      norm_num
    · rcases minsel_cases s1 sc1 A1 1 with ⟨he1, _⟩ | he1
      · rw [hs3, he, hs2, he1]
        norm_num
      · rcases minsel_cases (1000000000, 3) sc0 A0 0 with ⟨he0, _⟩ | he0
        · rw [hs3, he, hs2, he1, hs1, he0]
          norm_num
        · exfalso
          rw [hs3, he, hs2, he1, hs1, he0] at hsmall
          norm_num at hsmall
  rw [if_pos hidx]
  refine ⟨s3.1, rfl, ?_, ?_, ?_, hprov⟩
  · intro hh
    have := le0 hh
    linarith
  · intro hh
    have := le1 hh
    linarith
  · exact le2

/-- Witness for C7 at a concrete instance (x extent `2`, target `80`,
degenerate y and z axes): the hypothesis holds and the factors equalise. -/
theorem c7_preserve_ratio_min_witness :
    ((0 < (2 : ℝ) - 0 ∧ (80 : ℝ) / (2 - 0) < 1000000000)
      ∨ (0 < (0 : ℝ) - 0 ∧ (80 : ℝ) / (0 - 0) < 1000000000)
      ∨ (0 < (0 : ℝ) - 0 ∧ (80 : ℝ) / (0 - 0) < 1000000000))
    ∧ ∃ m : ℝ,
        (scalefunction 80 80 80 2 0 0 0 0 0).1 = (m, m, m)
        ∧ (0 < (2 : ℝ) - 0 → m ≤ 80 / (2 - 0))
        ∧ (0 < (0 : ℝ) - 0 → m ≤ 80 / (0 - 0))
        ∧ (0 < (0 : ℝ) - 0 → m ≤ 80 / (0 - 0))
        ∧ ((0 < (2 : ℝ) - 0 ∧ m = 80 / (2 - 0))
            ∨ (0 < (0 : ℝ) - 0 ∧ m = 80 / (0 - 0))
            ∨ (0 < (0 : ℝ) - 0 ∧ m = 80 / (0 - 0))) :=
  ⟨Or.inl (by norm_num), c7_preserve_ratio_min 80 80 80 2 0 0 0 0 0 (Or.inl (by norm_num))⟩

/-- C7 counterexample: with a nonzero-but-tiny x extent the x factor reaches
the `10^9` sentinel, the minimum search selects nothing, and the three
returned factors are *not* equal (here `(8·10^10, 1, 1)`), refuting the claim
as stated. -/
theorem c7_unequal_factors :
    0 < (1 : ℝ) / 1000000000 - 0
    ∧ (scalefunction 80 80 80 (1 / 1000000000) 0 0 0 0 0).1.1
        ≠ (scalefunction 80 80 80 (1 / 1000000000) 0 0 0 0 0).1.2.1 := by
  constructor
  · norm_num
  · unfold scalefunction
    norm_num [minsel]

/-! ## Claim C5 -/

/-- Characterisation of the seed-scan fold: the running maximum never
decreases, the final state is either the initial one or records an eligible
scanned cell and its magnitude, and it dominates the magnitude of every
eligible scanned cell. -/
theorem scan_fold_spec (ucvx ucvy ucvz : Cell → ℝ) (xm ym zm : ℤ → Bool) :
    ∀ (l : List Cell) (st : ℝ × Cell),
      st.1 ≤ (l.foldl (scan_step ucvx ucvy ucvz xm ym zm) st).1
      ∧ ((l.foldl (scan_step ucvx ucvy ucvz xm ym zm) st) = st
          ∨ ((!xm (l.foldl (scan_step ucvx ucvy ucvz xm ym zm) st).2.1
                || !ym (l.foldl (scan_step ucvx ucvy ucvz xm ym zm) st).2.2.1
                || !zm (l.foldl (scan_step ucvx ucvy ucvz xm ym zm) st).2.2.2) = true
              ∧ (l.foldl (scan_step ucvx ucvy ucvz xm ym zm) st).2 ∈ l
              ∧ ucvmag ucvx ucvy ucvz (l.foldl (scan_step ucvx ucvy ucvz xm ym zm) st).2
                  = (l.foldl (scan_step ucvx ucvy ucvz xm ym zm) st).1))
      ∧ (∀ c ∈ l, (!xm c.1 || !ym c.2.1 || !zm c.2.2) = true →
          ucvmag ucvx ucvy ucvz c ≤ (l.foldl (scan_step ucvx ucvy ucvz xm ym zm) st).1) := by
  intro l
  induction l with
  | nil =>
    intro st
    exact ⟨le_refl _, Or.inl rfl, by intro c hc; simp at hc⟩
  | cons a l ih =>
    intro st
    rw [List.foldl_cons]
    obtain ⟨ihle, ihprov, ihbd⟩ := ih (scan_step ucvx ucvy ucvz xm ym zm st a)
    have hstep : st.1 ≤ (scan_step ucvx ucvy ucvz xm ym zm st a).1
        ∧ ((scan_step ucvx ucvy ucvz xm ym zm st a) = st
          ∨ ((!xm a.1 || !ym a.2.1 || !zm a.2.2) = true
              ∧ (scan_step ucvx ucvy ucvz xm ym zm st a)
                  = (ucvmag ucvx ucvy ucvz a, a))) := by
      simp only [scan_step]
      split_ifs with hcond
      · exact ⟨le_of_lt hcond.2, Or.inr ⟨hcond.1, rfl⟩⟩
      · exact ⟨le_refl _, Or.inl rfl⟩
    refine ⟨le_trans hstep.1 ihle, ?_, ?_⟩
    · rcases ihprov with he | ⟨helig, hmem, hmag⟩
      · rw [he]
        rcases hstep.2 with he2 | ⟨helig2, he2⟩
        · exact Or.inl he2
        · rw [he2]
          exact Or.inr ⟨helig2, List.mem_cons_self _ _, rfl⟩
      · exact Or.inr ⟨helig, List.mem_cons_of_mem _ hmem, hmag⟩
    · intro c hc helig
      rcases List.mem_cons.mp hc with rfl | hmem
      · rcases hstep.2 with he2 | ⟨_, he2⟩
        · simp only [scan_step] at he2
          by_cases hlt : st.1 < ucvmag ucvx ucvy ucvz c
          · exfalso
            rw [if_pos ⟨helig, hlt⟩] at he2
            have : ucvmag ucvx ucvy ucvz c = st.1 := congrArg Prod.fst he2
            linarith
          · exact le_trans (le_of_not_lt hlt) (le_trans hstep.1 ihle)
        · have : (scan_step ucvx ucvy ucvz xm ym zm st c).1 = ucvmag ucvx ucvy ucvz c :=
            congrArg Prod.fst he2
          rw [← this]
          exact ihle
      · exact ihbd c hmem helig

/-- C5 (amended): each iteration of the filament-extraction loop seeds at the
global maximum of the cross-gradient magnitude over the cells with *at least
one unmarked stratum* (a cell is skipped only when its i, j *and* k strata
are all marked), and the loop stops reporting no further components exactly
when that maximum — `-1` when no such cell exists — is below `0.7`. -/
theorem c5_seed_scan_max :
    ∀ (Nx Ny Nz : ℤ) (ucvx ucvy ucvz : Cell → ℝ) (xm ym zm : ℤ → Bool),
      ((find_knot_scan Nx Ny Nz ucvx ucvy ucvz xm ym zm).1 < 0.7
        ↔ ∀ c ∈ cellList Nx Ny Nz, (!xm c.1 || !ym c.2.1 || !zm c.2.2) = true →
            ucvmag ucvx ucvy ucvz c < 0.7)
      ∧ ((0.7 : ℝ) ≤ (find_knot_scan Nx Ny Nz ucvx ucvy ucvz xm ym zm).1 →
          (!xm (find_knot_scan Nx Ny Nz ucvx ucvy ucvz xm ym zm).2.1
            || !ym (find_knot_scan Nx Ny Nz ucvx ucvy ucvz xm ym zm).2.2.1
            || !zm (find_knot_scan Nx Ny Nz ucvx ucvy ucvz xm ym zm).2.2.2) = true
          ∧ (find_knot_scan Nx Ny Nz ucvx ucvy ucvz xm ym zm).2 ∈ cellList Nx Ny Nz
          ∧ ucvmag ucvx ucvy ucvz (find_knot_scan Nx Ny Nz ucvx ucvy ucvz xm ym zm).2
              = (find_knot_scan Nx Ny Nz ucvx ucvy ucvz xm ym zm).1
          ∧ ∀ c ∈ cellList Nx Ny Nz, (!xm c.1 || !ym c.2.1 || !zm c.2.2) = true →
              ucvmag ucvx ucvy ucvz c
                ≤ (find_knot_scan Nx Ny Nz ucvx ucvy ucvz xm ym zm).1) := by
  intro Nx Ny Nz ucvx ucvy ucvz xm ym zm
  obtain ⟨hle, hprov, hbd⟩ :=
    scan_fold_spec ucvx ucvy ucvz xm ym zm (cellList Nx Ny Nz) (-1, (0, 0, 0))
  constructor
  · constructor
    · intro hlt c hc helig
      exact lt_of_le_of_lt (hbd c hc helig) hlt
    · intro hall
      rcases hprov with he | ⟨helig, hmem, hmag⟩
      · unfold find_knot_scan
        rw [he]
        norm_num
      · unfold find_knot_scan
        rw [← hmag]
        exact hall _ hmem helig
  · intro hge
    rcases hprov with he | ⟨helig, hmem, hmag⟩
    · exfalso
      unfold find_knot_scan at hge
      rw [he] at hge
      norm_num at hge
    · exact ⟨helig, hmem, hmag, hbd⟩

/-- Witness for C5 at a concrete instance: a `1×1×1` grid, no marked strata,
magnitude `1` at the single cell — the scan seeds that cell and does not
stop. -/
theorem c5_seed_scan_max_witness :
    (0.7 : ℝ) ≤ (find_knot_scan 1 1 1 (fun _ => 1) (fun _ => 0) (fun _ => 0)
        (fun _ => false) (fun _ => false) (fun _ => false)).1
    ∧ (find_knot_scan 1 1 1 (fun _ => 1) (fun _ => 0) (fun _ => 0)
        (fun _ => false) (fun _ => false) (fun _ => false)).2 ∈ cellList 1 1 1 := by
  have heval : find_knot_scan 1 1 1 (fun _ => 1) (fun _ => 0) (fun _ => 0)
      (fun _ => false) (fun _ => false) (fun _ => false) = (1, (0, 0, 0)) := by
    have hcells : cellList 1 1 1 = [((0 : ℤ), (0 : ℤ), (0 : ℤ))] := rfl
    unfold find_knot_scan
    rw [hcells]
    simp only [List.foldl_cons, List.foldl_nil]
    norm_num [scan_step, ucvmag]
  have h2 := (c5_seed_scan_max 1 1 1 (fun _ => 1) (fun _ => 0) (fun _ => 0)
      (fun _ => false) (fun _ => false) (fun _ => false)).2 (by rw [heval]; norm_num)
  exact ⟨by rw [heval]; norm_num, h2.2.1⟩

/-- C5 counterexample: on a `1×1×1` grid whose only cell has its `i` stratum
marked (so, per the claim, *no* unmarked cell exists and the loop must stop),
the source scan still considers the cell (its condition is
`!xmarked || !ymarked || !zmarked`), finds maximum `1 ≥ 0.7`, does not stop,
and seeds at a cell whose `i` stratum is marked. -/
theorem c5_counterexample :
    (0.7 : ℝ) ≤ (find_knot_scan 1 1 1 (fun _ => 1) (fun _ => 0) (fun _ => 0)
        (fun _ => true) (fun _ => false) (fun _ => false)).1
    ∧ (find_knot_scan 1 1 1 (fun _ => 1) (fun _ => 0) (fun _ => 0)
        (fun _ => true) (fun _ => false) (fun _ => false)).2 = (0, 0, 0)
    ∧ (fun _ : ℤ => true) (0 : ℤ) = true := by
  have heval : find_knot_scan 1 1 1 (fun _ => 1) (fun _ => 0) (fun _ => 0)
      (fun _ => true) (fun _ => false) (fun _ => false) = (1, (0, 0, 0)) := by
    have hcells : cellList 1 1 1 = [((0 : ℤ), (0 : ℤ), (0 : ℤ))] := rfl
    unfold find_knot_scan
    rw [hcells]
    simp only [List.foldl_cons, List.foldl_nil]
    norm_num [scan_step, ucvmag]
  exact ⟨by rw [heval]; norm_num, by rw [heval], rfl⟩

/-! ## Claim C6 -/

/-- Full characterisation of the tracing loop from step `s` when the out-of-box
breaks never fire: it returns exactly the points `np s, …, np e` for the first
`e ≥ s` satisfying the source's finish condition (closure within `3h` after
more than 10 points, or the `50000`-point runaway guard, which fires by
`e = 50001` at the latest). -/
theorem trace_from_spec (np : ℕ → Point) (h : ℝ) (start : Point) :
    ∀ (k s : ℕ), 1 ≤ s → s ≤ 50001 → 50001 - s ≤ k →
      ∃ e, s ≤ e ∧ e ≤ 50001
        ∧ trace_from np (fun _ => false) h start s = (List.range' s (e - s + 1)).map np
        ∧ ((dist3 start (np e) < 3 * h ∧ 10 < e) ∨ 50000 < e)
        ∧ ∀ t, s ≤ t → t < e → ¬((dist3 start (np t) < 3 * h ∧ 10 < t) ∨ 50000 < t) := by
  intro k
  induction k with
  | zero =>
    intro s hs1 hs2 hk
    have hse : s = 50001 := by omega
    subst hse
    refine ⟨50001, le_refl _, le_refl _, ?_, Or.inr (by norm_num), ?_⟩
    · rw [trace_from]
      simp only [Bool.false_eq_true, if_false]
      rw [dif_pos (Or.inr (by norm_num : (50000 : ℕ) < 50001))]
      simp [List.range'_one]
    · intro t ht1 ht2 hh
      omega
  | succ k ih =>
    intro s hs1 hs2 hk
    by_cases hstop : (dist3 start (np s) < 3 * h ∧ 10 < s) ∨ 50000 < s
    · refine ⟨s, le_refl _, hs2, ?_, hstop, ?_⟩
      · rw [trace_from]
        simp only [Bool.false_eq_true, if_false]
        rw [dif_pos hstop]
        have hss : s - s + 1 = 1 := by omega
        rw [hss]
        simp [List.range'_one]
      · intro t ht1 ht2 hh
        omega
    · have hs50 : s ≤ 50000 := by
        by_contra hgt
        exact hstop (Or.inr (by omega))
      obtain ⟨e, he1, he2, hlist, hcond, hmin⟩ := ih (s + 1) (by omega) (by omega) (by omega)
      refine ⟨e, by omega, he2, ?_, hcond, ?_⟩
      · rw [trace_from]
        simp only [Bool.false_eq_true, if_false]
        rw [dif_neg hstop, hlist]
        have hrange : List.range' s (e - s + 1) = s :: List.range' (s + 1) (e - s) := by
          have : e - s + 1 = (e - s) + 1 := rfl
          rw [this, List.range'_succ]
        rw [hrange]
        have : e - s = e - (s + 1) + 1 := by omega
        rw [List.map_cons, this]
      · intro t ht1 ht2
        rcases Nat.eq_or_lt_of_le ht1 with rfl | hlt
        · exact hstop
        · exact hmin t (by omega) ht2

/-- Bounded length of the tracing loop for arbitrary oracles (the two `break`
checks may fire at any step). -/
theorem trace_from_length_le (np : ℕ → Point) (brk : ℕ → Bool) (h : ℝ) (start : Point) :
    ∀ s, 1 ≤ s → s ≤ 50001 → (trace_from np brk h start s).length + s ≤ 50002 := by
  have hmain : ∀ (k s : ℕ), 1 ≤ s → s ≤ 50001 → 50001 - s ≤ k →
      (trace_from np brk h start s).length + s ≤ 50002 := by
    intro k
    induction k with
    | zero =>
      intro s hs1 hs2 hk
      have hse : s = 50001 := by omega
      subst hse
      rw [trace_from]
      by_cases hb : brk 50001
      · simp only [hb, if_true, List.length_nil]
        omega
      · simp only [hb, Bool.false_eq_true, if_false]
        rw [dif_pos (Or.inr (by norm_num : (50000 : ℕ) < 50001))]
        simp only [List.length_singleton]
        omega
    | succ k ih =>
      intro s hs1 hs2 hk
      rw [trace_from]
      by_cases hb : brk s
      · simp only [hb, if_true, List.length_nil]
        omega
      · simp only [hb, Bool.false_eq_true, if_false]
        by_cases hstop : (dist3 start (np s) < 3 * h ∧ 10 < s) ∨ 50000 < s
        · rw [dif_pos hstop]
          simp only [List.length_singleton]
          omega
        · have hs50 : s ≤ 50000 := by
            by_contra hgt
            exact hstop (Or.inr (by omega))
          rw [dif_neg hstop]
          have := ih (s + 1) (by omega) (by omega) (by omega)
          simp only [List.length_cons]
          omega
  intro s hs1 hs2
  exact hmain (50001 - s) s hs1 hs2 (le_refl _)

/-- C6 (amended): curve tracing always terminates — the curve has at most
`50002` points for arbitrary interpolation/minimiser behaviour and break
checks; and when the out-of-box breaks never fire it stops exactly at the
first step `e` satisfying the source's conditions (within `3` grid spacings
of the start after more than `10` points, or `e > 50000`, the `50000`-point
runaway guard), returning the whole traced curve in both cases (a
runaway-stopped curve is kept and processed like any other, not
abandoned). -/
theorem c6_trace_terminates :
    ∀ (np : ℕ → Point) (brk : ℕ → Bool) (h : ℝ) (start : Point),
      (find_knot_trace np brk h start).length ≤ 50002
      ∧ (brk = (fun _ => false) →
          ∃ e, 1 ≤ e ∧ e ≤ 50001
            ∧ find_knot_trace np brk h start = start :: (List.range' 1 e).map np
            ∧ ((dist3 start (np e) < 3 * h ∧ 10 < e) ∨ 50000 < e)
            ∧ ∀ t, 1 ≤ t → t < e →
                ¬((dist3 start (np t) < 3 * h ∧ 10 < t) ∨ 50000 < t)) := by
  intro np brk h start
  constructor
  · have := trace_from_length_le np brk h start 1 (le_refl _) (by norm_num)
    unfold find_knot_trace
    simp only [List.length_cons]
    omega
  · intro hb
    subst hb
    obtain ⟨e, he1, he2, hlist, hcond, hmin⟩ :=
      trace_from_spec np h start 50000 1 (le_refl _) (by norm_num) (by norm_num)
    refine ⟨e, he1, he2, ?_, hcond, hmin⟩
    unfold find_knot_trace
    rw [hlist]
    have : e - 1 + 1 = e := by omega
    rw [this]

/-- Witness for C6: the tracing loop on a concrete oracle that never comes
back near its start. -/
theorem c6_trace_terminates_witness :
    ((fun _ : ℕ => false) = (fun _ : ℕ => false))
    ∧ (find_knot_trace (fun _ => ((10 : ℝ), (0 : ℝ), (0 : ℝ))) (fun _ => false) 1
        (0, 0, 0)).length ≤ 50002
    ∧ ∃ e, 1 ≤ e ∧ e ≤ 50001
        ∧ find_knot_trace (fun _ => ((10 : ℝ), (0 : ℝ), (0 : ℝ))) (fun _ => false) 1 (0, 0, 0)
            = (0, 0, 0) :: (List.range' 1 e).map (fun _ => ((10 : ℝ), (0 : ℝ), (0 : ℝ)))
        ∧ ((dist3 (0, 0, 0) ((10 : ℝ), (0 : ℝ), (0 : ℝ)) < 3 * 1 ∧ 10 < e) ∨ 50000 < e)
        ∧ ∀ t, 1 ≤ t → t < e →
            ¬((dist3 (0, 0, 0) ((10 : ℝ), (0 : ℝ), (0 : ℝ)) < 3 * 1 ∧ 10 < t) ∨ 50000 < t) :=
  ⟨rfl, (c6_trace_terminates (fun _ => ((10 : ℝ), (0 : ℝ), (0 : ℝ))) (fun _ => false) 1
      (0, 0, 0)).1,
    (c6_trace_terminates (fun _ => ((10 : ℝ), (0 : ℝ), (0 : ℝ))) (fun _ => false) 1
      (0, 0, 0)).2 rfl⟩

/-- C6 counterexample to "the runaway curve is treated as abandoned/invalid":
with an oracle that always stays 10 units from the start (so closure never
fires) and no break, the loop runs into the `s > 50000` runaway guard and the
full `50002`-point curve is returned and kept — nothing discards or flags
it. -/
theorem c6_runaway_curve_kept :
    (find_knot_trace (fun _ => ((10 : ℝ), (0 : ℝ), (0 : ℝ))) (fun _ => false) 1
        (0, 0, 0)).length = 50002
    ∧ find_knot_trace (fun _ => ((10 : ℝ), (0 : ℝ), (0 : ℝ))) (fun _ => false) 1 (0, 0, 0)
        = (0, 0, 0) :: (List.range' 1 50001).map (fun _ => ((10 : ℝ), (0 : ℝ), (0 : ℝ))) := by
  have hdist : dist3 ((0 : ℝ), (0 : ℝ), (0 : ℝ)) ((10 : ℝ), (0 : ℝ), (0 : ℝ)) = 10 := by
    unfold dist3
    rw [show ((0 : ℝ) - 10) * ((0 : ℝ) - 10) + ((0 : ℝ) - 0) * ((0 : ℝ) - 0)
        + ((0 : ℝ) - 0) * ((0 : ℝ) - 0) = 10 ^ 2 by norm_num]
    exact Real.sqrt_sq (by norm_num)
  obtain ⟨e, he1, he2, hlist, hcond, hmin⟩ :=
    trace_from_spec (fun _ => ((10 : ℝ), (0 : ℝ), (0 : ℝ))) 1 (0, 0, 0) 50000 1
      (le_refl _) (by norm_num) (by norm_num)
  have hno : ¬(dist3 ((0 : ℝ), (0 : ℝ), (0 : ℝ)) ((10 : ℝ), (0 : ℝ), (0 : ℝ)) < 3 * 1) := by
    rw [hdist]
    norm_num
  have he : e = 50001 := by
    rcases hcond with ⟨hc, _⟩ | hgt
    · exact absurd hc hno
    · omega
  subst he
  have hfull : find_knot_trace (fun _ => ((10 : ℝ), (0 : ℝ), (0 : ℝ))) (fun _ => false) 1
      (0, 0, 0) = (0, 0, 0) :: (List.range' 1 50001).map
        (fun _ => ((10 : ℝ), (0 : ℝ), (0 : ℝ))) := by
    unfold find_knot_trace
    rw [hlist]
  refine ⟨?_, hfull⟩
  rw [hfull, List.length_cons, List.length_map, List.length_range']

/-! ## Path-finder: basic facts -/

theorem mem_offsets_abs : ∀ o ∈ offsets, |o.1| ≤ 1 ∧ |o.2.1| ≤ 1 ∧ |o.2.2| ≤ 1 := by
  decide

theorem zero_mem_offsets : ((0 : ℤ), (0 : ℤ), (0 : ℤ)) ∈ offsets := by
  decide

theorem sign_abs_le (d : ℤ) : |sign d| ≤ 1 := by
  unfold sign
  split_ifs <;> norm_num

theorem sign_step_bound (a e N : ℤ) (ha0 : 0 ≤ a) (ha1 : a < N) (he0 : 0 ≤ e)
    (he1 : e < N) : 0 ≤ a + sign (e - a) ∧ a + sign (e - a) < N := by
  unfold sign
  split_ifs <;> omega

theorem add_eq_zero_01 (x y : ℤ) (hx : x = 0 ∨ x = 1) (hy : y = 0 ∨ y = 1)
    (h : x + y = 0) : x = 0 ∧ y = 0 := by
  rcases hx with rfl | rfl <;> rcases hy with rfl | rfl <;> omega

theorem neg_one_le_dot_div (a1 a2 a3 b1 b2 b3 : ℝ) :
    -1 ≤ (a1 * b1 + a2 * b2 + a3 * b3)
      / (Real.sqrt (a1 * a1 + a2 * a2 + a3 * a3)
          * Real.sqrt (b1 * b1 + b2 * b2 + b3 * b3)) := by
  set x := a1 * b1 + a2 * b2 + a3 * b3 with hx
  set D := Real.sqrt (a1 * a1 + a2 * a2 + a3 * a3)
    * Real.sqrt (b1 * b1 + b2 * b2 + b3 * b3) with hD
  have hD0 : 0 ≤ D := mul_nonneg (Real.sqrt_nonneg _) (Real.sqrt_nonneg _)
  rcases eq_or_lt_of_le hD0 with heq | hpos
  · rw [← heq, div_zero]
    norm_num
  · rw [le_div_iff₀ hpos]
    have hcs : x * x ≤ (a1 * a1 + a2 * a2 + a3 * a3) * (b1 * b1 + b2 * b2 + b3 * b3) := by
      rw [hx]
      nlinarith [sq_nonneg (a1 * b2 - a2 * b1), sq_nonneg (a1 * b3 - a3 * b1),
        sq_nonneg (a2 * b3 - a3 * b2)]
    have hD2 : D * D = (a1 * a1 + a2 * a2 + a3 * a3) * (b1 * b1 + b2 * b2 + b3 * b3) := by
      have hA : (0 : ℝ) ≤ a1 * a1 + a2 * a2 + a3 * a3 :=
        add_nonneg (add_nonneg (mul_self_nonneg _) (mul_self_nonneg _)) (mul_self_nonneg _)
      have hB : (0 : ℝ) ≤ b1 * b1 + b2 * b2 + b3 * b3 :=
        add_nonneg (add_nonneg (mul_self_nonneg _) (mul_self_nonneg _)) (mul_self_nonneg _)
      rw [hD, mul_mul_mul_comm, Real.mul_self_sqrt hA, Real.mul_self_sqrt hB]
    nlinarith [sq_nonneg (x + D)]

theorem untracked_update_lt (ctx : PFCtx) (track : Cell → ℤ) (c : Cell)
    (hc : c ∈ boxFinset ctx) (h0 : track c = 0) :
    untracked ctx (Function.update track c 1) < untracked ctx track := by
  unfold untracked
  apply Finset.card_lt_card
  rw [Finset.ssubset_iff_of_subset]
  · exact ⟨c, Finset.mem_filter.mpr ⟨hc, h0⟩, by
      intro hmem
      have := (Finset.mem_filter.mp hmem).2
      rw [Function.update_same] at this
      exact one_ne_zero this⟩
  · intro d hd
    obtain ⟨hdbox, hdtr⟩ := Finset.mem_filter.mp hd
    refine Finset.mem_filter.mpr ⟨hdbox, ?_⟩
    by_cases hdc : d = c
    · subst hdc
      rw [Function.update_same] at hdtr
      exact absurd hdtr one_ne_zero
    · rwa [Function.update_noteq hdc] at hdtr

theorem update_one_eq_self (track : Cell → ℤ) (c : Cell) (h : track c = 1) :
    Function.update track c 1 = track := by
  funext d
  by_cases hd : d = c
  · subst hd
    rw [Function.update_same, h]
  · rw [Function.update_noteq hd]

theorem mem_boxFinset (ctx : PFCtx) (c : Cell) : c ∈ boxFinset ctx ↔ inGrid ctx c := by
  unfold boxFinset inGrid
  rcases c with ⟨i, j, k⟩
  simp only [Finset.mem_product, Finset.mem_Icc]
  omega

theorem inBox_inGrid (ctx : PFCtx) (c : Cell) (h : inBox ctx c) : inGrid ctx c := by
  unfold inBox at h
  unfold inGrid
  omega

theorem addc_zero (c : Cell) : addc c (0, 0, 0) = c := by
  unfold addc
  simp

theorem adjStep_addc (c : Cell) (o : Cell) (ho : |o.1| ≤ 1 ∧ |o.2.1| ≤ 1 ∧ |o.2.2| ≤ 1) :
    adjStep c (addc c o) := by
  unfold adjStep addc
  exact ⟨by simpa using ho.1, by simpa using ho.2.1, by simpa using ho.2.2⟩

/-! ## Path-finder: scan lemmas -/

theorem scan_cand_Q (ctx : PFCtx)
    (hBmag : ∀ c, ctx.Bmag c = Real.sqrt (ctx.Bx c * ctx.Bx c + ctx.By c * ctx.By c
      + ctx.Bz c * ctx.Bz c))
    (h01 : ∀ c, ctx.ignore c = 0 ∨ ctx.ignore c = 1)
    (cur d : Cell) (track : Cell → ℤ) (ht01 : ∀ c, track c = 0 ∨ track c = 1)
    (o : Cell) (ho : o ∈ offsets) (st : ScanSt) (hQ : scanQ ctx cur track st) :
    scanQ ctx cur track (scan_cand ctx cur d st o)
    ∧ ((scan_cand ctx cur d st o).go = false → st.go = false
        ∧ ¬scanPass ctx cur track o) := by
  have hst01 : ∀ c, st.track c = 0 ∨ st.track c = 1 := by
    rcases hQ with ⟨_, he, _⟩ | ⟨_, he, _⟩ <;> intro c <;> rw [he]
    · exact ht01 c
    · by_cases hc : c = cur
      · subst hc
        rw [Function.update_same]
        exact Or.inr rfl
      · rw [Function.update_noteq hc]
        exact ht01 c
  simp only [scan_cand]
  by_cases hc : (if inBox ctx (addc cur o)
      then ctx.ignore (addc cur o) + st.track (addc cur o) else 1) = 0
  · rw [if_pos hc]
    have hbox : inBox ctx (addc cur o) := by
      by_contra hnb
      rw [if_neg hnb] at hc
      exact one_ne_zero hc
    rw [if_pos hbox] at hc
    obtain ⟨hig, htr⟩ := add_eq_zero_01 _ _ (h01 _) (hst01 _) hc
    have htrbase : track (addc cur o) = 0 := by
      rcases hQ with ⟨_, he, _⟩ | ⟨_, he, _⟩
      · rwa [he] at htr
      · rw [he] at htr
        by_cases hcc : addc cur o = cur
        · rw [hcc, Function.update_same] at htr
          exact absurd htr one_ne_zero
        · rwa [Function.update_noteq hcc] at htr
    by_cases hmax : st.MAX < dotc d o / (normc d * normc o)
        + (ctx.Bx (addc cur o) * (o.1 : ℝ) + ctx.By (addc cur o) * (o.2.1 : ℝ)
          + ctx.Bz (addc cur o) * (o.2.2 : ℝ)) / (ctx.Bmag (addc cur o) * normc o)
    · rw [if_pos hmax]
      refine ⟨Or.inr ⟨rfl, ?_, ho, hbox, hig, htrbase⟩, ?_⟩
      · rcases hQ with ⟨_, he, _⟩ | ⟨_, he, _⟩
        · rw [he]
        · rw [he, Function.update_idem]
      · intro hgo
        simp at hgo
    · rw [if_neg hmax]
      rcases hQ with ⟨_, he, hM⟩ | ⟨hgo, he, hsel⟩
      · exfalso
        apply hmax
        rw [hM]
        have hw1 : -1 ≤ dotc d o / (normc d * normc o) := by
          unfold dotc normc
          push_cast
          exact neg_one_le_dot_div _ _ _ _ _ _
        have hw2 : -1 ≤ (ctx.Bx (addc cur o) * (o.1 : ℝ) + ctx.By (addc cur o) * (o.2.1 : ℝ)
            + ctx.Bz (addc cur o) * (o.2.2 : ℝ)) / (ctx.Bmag (addc cur o) * normc o) := by
          rw [hBmag (addc cur o)]
          unfold normc
          push_cast
          exact neg_one_le_dot_div _ _ _ _ _ _
        linarith
      · refine ⟨Or.inr ⟨rfl, he, hsel⟩, ?_⟩
        intro hgo2
        simp at hgo2
  · rw [if_neg hc]
    refine ⟨hQ, ?_⟩
    intro hgo
    refine ⟨hgo, ?_⟩
    intro hpass
    apply hc
    rw [if_pos hpass.1]
    rcases hQ with ⟨_, he, _⟩ | ⟨hgo2, _, _⟩
    · rw [he]
      exact hpass.2
    · rw [hgo2] at hgo
      exact absurd hgo (by simp)

theorem scan_fold_Q (ctx : PFCtx)
    (hBmag : ∀ c, ctx.Bmag c = Real.sqrt (ctx.Bx c * ctx.Bx c + ctx.By c * ctx.By c
      + ctx.Bz c * ctx.Bz c))
    (h01 : ∀ c, ctx.ignore c = 0 ∨ ctx.ignore c = 1)
    (cur d : Cell) (track : Cell → ℤ) (ht01 : ∀ c, track c = 0 ∨ track c = 1) :
    ∀ (l : List Cell), (∀ o ∈ l, o ∈ offsets) → ∀ st, scanQ ctx cur track st →
      scanQ ctx cur track (l.foldl (scan_cand ctx cur d) st)
      ∧ ((l.foldl (scan_cand ctx cur d) st).go = false → st.go = false
          ∧ ∀ o ∈ l, ¬scanPass ctx cur track o) := by
  intro l
  induction l with
  | nil =>
    intro _ st hQ
    exact ⟨hQ, fun hgo => ⟨hgo, by intro o hmem; simp at hmem⟩⟩
  | cons a l ih =>
    intro hsub st hQ
    obtain ⟨hQa, hfa⟩ := scan_cand_Q ctx hBmag h01 cur d track ht01 a
      (hsub a (List.mem_cons_self _ _)) st hQ
    obtain ⟨hQf, hff⟩ := ih (fun o hmem => hsub o (List.mem_cons_of_mem _ hmem))
      (scan_cand ctx cur d st a) hQa
    rw [List.foldl_cons]
    refine ⟨hQf, ?_⟩
    intro hgo
    obtain ⟨hstep, hrest⟩ := hff hgo
    obtain ⟨hst, hpa⟩ := hfa hstep
    refine ⟨hst, ?_⟩
    intro o hmem
    rcases List.mem_cons.mp hmem with rfl | hmem2
    · exact hpa
    · exact hrest o hmem2

theorem pf_scan_spec (ctx : PFCtx)
    (hBmag : ∀ c, ctx.Bmag c = Real.sqrt (ctx.Bx c * ctx.Bx c + ctx.By c * ctx.By c
      + ctx.Bz c * ctx.Bz c))
    (h01 : ∀ c, ctx.ignore c = 0 ∨ ctx.ignore c = 1)
    (cur d : Cell) (track : Cell → ℤ) (ht01 : ∀ c, track c = 0 ∨ track c = 1)
    (sel0 : Cell) :
    ((pf_scan ctx cur d track sel0).go = false →
      (pf_scan ctx cur d track sel0).track = track
        ∧ ∀ o ∈ offsets, ¬scanPass ctx cur track o)
    ∧ ((pf_scan ctx cur d track sel0).go = true →
      (pf_scan ctx cur d track sel0).track = Function.update track cur 1
        ∧ (pf_scan ctx cur d track sel0).sel ∈ offsets
        ∧ inBox ctx (addc cur (pf_scan ctx cur d track sel0).sel)
        ∧ ctx.ignore (addc cur (pf_scan ctx cur d track sel0).sel) = 0
        ∧ track (addc cur (pf_scan ctx cur d track sel0).sel) = 0) := by
  obtain ⟨hQ, hf⟩ := scan_fold_Q ctx hBmag h01 cur d track ht01 offsets
    (fun o ho => ho) { MAX := -10, sel := sel0, go := false, track := track }
    (Or.inl ⟨rfl, rfl, rfl⟩)
  unfold pf_scan
  constructor
  · intro hgo
    rcases hQ with ⟨_, he, _⟩ | ⟨hgo2, _, _⟩
    · exact ⟨he, (hf hgo).2⟩
    · rw [hgo] at hgo2
      exact absurd hgo2 (by simp)
  · intro hgo
    rcases hQ with ⟨hgo2, _, _⟩ | ⟨_, he, hsel, hbox, hig, htr⟩
    · rw [hgo] at hgo2
      exact absurd hgo2 (by simp)
    · exact ⟨he, hsel, hbox, hig, htr⟩

/-! ## Path-finder: branch lemmas -/

theorem pfScanRes_spec (ctx : PFCtx) (tgt : Cell) (st : PFState)
    (hBmag : ∀ c, ctx.Bmag c = Real.sqrt (ctx.Bx c * ctx.Bx c + ctx.By c * ctx.By c
      + ctx.Bz c * ctx.Bz c))
    (h01 : ∀ c, ctx.ignore c = 0 ∨ ctx.ignore c = 1)
    (ht01 : ∀ c, st.track c = 0 ∨ st.track c = 1) :
    ((pfScanRes ctx tgt st).go = false →
      (pfScanRes ctx tgt st).track = st.track
        ∧ ∀ o ∈ offsets, ¬scanPass ctx (st.path st.t) st.track o)
    ∧ ((pfScanRes ctx tgt st).go = true →
      (pfScanRes ctx tgt st).track = Function.update st.track (st.path st.t) 1
        ∧ (pfScanRes ctx tgt st).sel ∈ offsets
        ∧ inBox ctx (addc (st.path st.t) (pfScanRes ctx tgt st).sel)
        ∧ ctx.ignore (addc (st.path st.t) (pfScanRes ctx tgt st).sel) = 0
        ∧ st.track (addc (st.path st.t) (pfScanRes ctx tgt st).sel) = 0) :=
  pf_scan_spec ctx hBmag h01 (st.path st.t) (pfD tgt st) st.track ht01 st.sel

theorem pfNu_inGrid (ctx : PFCtx) (tgt : Cell) (st : PFState)
    (hcur : inGrid ctx (st.path st.t)) (htgt : inGrid ctx tgt) :
    inGrid ctx (pfNu tgt st) := by
  obtain ⟨h1, h2, h3, h4, h5, h6⟩ := hcur
  obtain ⟨g1, g2, g3, g4, g5, g6⟩ := htgt
  unfold pfNu pfD addc signv inGrid
  exact ⟨(sign_step_bound _ _ _ h1 h2 g1 g2).1, (sign_step_bound _ _ _ h1 h2 g1 g2).2,
    (sign_step_bound _ _ _ h3 h4 g3 g4).1, (sign_step_bound _ _ _ h3 h4 g3 g4).2,
    (sign_step_bound _ _ _ h5 h6 g5 g6).1, (sign_step_bound _ _ _ h5 h6 g5 g6).2⟩

theorem pfInv_direct (ctx : PFCtx) (start tgt : Cell) (st : PFState)
    (h01 : ∀ c, ctx.ignore c = 0 ∨ ctx.ignore c = 1) (htgt : inGrid ctx tgt)
    (hJ : PFInv ctx start st) (hguard : ¬pfBound ctx ≤ (st.t : ℤ))
    (hdir : ctx.ignore (pfNu tgt st) + st.track (pfNu tgt st) = 0) :
    PFInv ctx start (pfDirectSt tgt st) := by
  have hnu : inGrid ctx (pfNu tgt st) := pfNu_inGrid ctx tgt st (hJ.inb st.t le_rfl) htgt
  obtain ⟨hig_nu, htr_nu⟩ := add_eq_zero_01 _ _ (h01 _) (hJ.track01 _) hdir
  refine ⟨?_, ?_, ?_, ?_, ?_, ?_, ?_⟩
  · show Function.update st.path (st.t + 1) (pfNu tgt st) 0 = start
    rw [Function.update_noteq (Nat.succ_ne_zero st.t).symm]
    exact hJ.path0
  · intro s hs
    show inGrid ctx (Function.update st.path (st.t + 1) (pfNu tgt st) s)
    by_cases hse : s = st.t + 1
    · subst hse
      rw [Function.update_same]
      exact hnu
    · rw [Function.update_noteq hse]
      exact hJ.inb s (by simp only [pfDirectSt] at hs; omega)
  · intro s hs
    simp only [pfDirectSt] at hs ⊢
    by_cases hse : s = st.t
    · subst hse
      rw [Function.update_noteq (by omega : st.t ≠ st.t + 1), Function.update_same]
      refine adjStep_addc _ _ ?_
      unfold signv pfD
      exact ⟨sign_abs_le _, sign_abs_le _, sign_abs_le _⟩
    · rw [Function.update_noteq (by omega : s ≠ st.t + 1),
        Function.update_noteq (by omega : s + 1 ≠ st.t + 1)]
      exact hJ.adj s (by omega)
  · intro s h1 h2
    simp only [pfDirectSt] at h2 ⊢
    by_cases hse : s = st.t + 1
    · subst hse
      rw [Function.update_same]
      exact hig_nu
    · rw [Function.update_noteq hse]
      exact hJ.ign s h1 (by omega)
  · intro c
    simp only [pfDirectSt]
    by_cases hc : c = pfNu tgt st
    · subst hc
      rw [Function.update_same]
      exact Or.inr rfl
    · rw [Function.update_noteq hc]
      exact hJ.track01 c
  · show ((st.t + 1 : ℕ) : ℤ) ≤ pfBound ctx
    have hlt : (st.t : ℤ) < pfBound ctx := lt_of_not_le hguard
    omega
  · intro s hs htr
    simp only [pfDirectSt] at hs htr ⊢
    by_cases hse : s = st.t + 1
    · subst hse
      rw [Function.update_same, Function.update_same] at htr
      exact absurd htr one_ne_zero
    · rw [Function.update_noteq hse] at htr ⊢
      by_cases hpc : st.path s = pfNu tgt st
      · rw [hpc, Function.update_same] at htr
        exact absurd htr one_ne_zero
      · rw [Function.update_noteq hpc] at htr
        exact hJ.posOK s (by omega) htr

theorem pfMeasure_direct (ctx : PFCtx) (start tgt : Cell) (st : PFState)
    (h01 : ∀ c, ctx.ignore c = 0 ∨ ctx.ignore c = 1) (htgt : inGrid ctx tgt)
    (hJ : PFInv ctx start st) (hguard : ¬pfBound ctx ≤ (st.t : ℤ))
    (hdir : ctx.ignore (pfNu tgt st) + st.track (pfNu tgt st) = 0) :
    pfMeasure ctx (pfDirectSt tgt st) < pfMeasure ctx st := by
  have hnu : inGrid ctx (pfNu tgt st) := pfNu_inGrid ctx tgt st (hJ.inb st.t le_rfl) htgt
  obtain ⟨hig_nu, htr_nu⟩ := add_eq_zero_01 _ _ (h01 _) (hJ.track01 _) hdir
  have hU : untracked ctx (Function.update st.track (pfNu tgt st) 1) < untracked ctx st.track :=
    untracked_update_lt ctx st.track (pfNu tgt st) ((mem_boxFinset ctx _).mpr hnu) htr_nu
  have hlt : (st.t : ℤ) < pfBound ctx := lt_of_not_le hguard
  have ht2 : st.t + 1 + 1 < (pfBound ctx).toNat + 2 := by omega
  unfold pfMeasure
  simp only [pfDirectSt]
  rw [Function.update_same, Function.update_same, if_neg one_ne_zero]
  calc ((pfBound ctx).toNat + 2) * untracked ctx (Function.update st.track (pfNu tgt st) 1)
        + (st.t + 1 + 1)
      < ((pfBound ctx).toNat + 2) * untracked ctx (Function.update st.track (pfNu tgt st) 1)
        + ((pfBound ctx).toNat + 2) := Nat.add_lt_add_left ht2 _
    _ = ((pfBound ctx).toNat + 2)
        * (untracked ctx (Function.update st.track (pfNu tgt st) 1) + 1) := by ring
    _ ≤ ((pfBound ctx).toNat + 2) * untracked ctx st.track :=
        Nat.mul_le_mul_left _ hU
    _ ≤ ((pfBound ctx).toNat + 2) * untracked ctx st.track
        + (if st.track (st.path st.t) = 0 then 0 else st.t + 1) := Nat.le_add_right _ _

theorem pfInv_scan (ctx : PFCtx) (start tgt : Cell) (st : PFState)
    (hBmag : ∀ c, ctx.Bmag c = Real.sqrt (ctx.Bx c * ctx.Bx c + ctx.By c * ctx.By c
      + ctx.Bz c * ctx.Bz c))
    (h01 : ∀ c, ctx.ignore c = 0 ∨ ctx.ignore c = 1)
    (hJ : PFInv ctx start st) (hguard : ¬pfBound ctx ≤ (st.t : ℤ))
    (hgo : (pfScanRes ctx tgt st).go = true) :
    PFInv ctx start (pfScanSt ctx tgt st) := by
  obtain ⟨htrk, hsel, hbox, hig, htr0⟩ :=
    (pfScanRes_spec ctx tgt st hBmag h01 hJ.track01).2 hgo
  refine ⟨?_, ?_, ?_, ?_, ?_, ?_, ?_⟩
  · show Function.update st.path (st.t + 1)
      (addc (st.path st.t) (pfScanRes ctx tgt st).sel) 0 = start
    rw [Function.update_noteq (Nat.succ_ne_zero st.t).symm]
    exact hJ.path0
  · intro s hs
    show inGrid ctx (Function.update st.path (st.t + 1)
      (addc (st.path st.t) (pfScanRes ctx tgt st).sel) s)
    by_cases hse : s = st.t + 1
    · subst hse
      rw [Function.update_same]
      exact inBox_inGrid ctx _ hbox
    · rw [Function.update_noteq hse]
      exact hJ.inb s (by simp only [pfScanSt] at hs; omega)
  · intro s hs
    simp only [pfScanSt] at hs ⊢
    by_cases hse : s = st.t
    · subst hse
      rw [Function.update_noteq (by omega : st.t ≠ st.t + 1), Function.update_same]
      exact adjStep_addc _ _ (mem_offsets_abs _ hsel)
    · rw [Function.update_noteq (by omega : s ≠ st.t + 1),
        Function.update_noteq (by omega : s + 1 ≠ st.t + 1)]
      exact hJ.adj s (by omega)
  · intro s h1 h2
    simp only [pfScanSt] at h2 ⊢
    by_cases hse : s = st.t + 1
    · subst hse
      rw [Function.update_same]
      exact hig
    · rw [Function.update_noteq hse]
      exact hJ.ign s h1 (by omega)
  · intro c
    simp only [pfScanSt]
    rw [htrk]
    by_cases hc : c = st.path st.t
    · subst hc
      rw [Function.update_same]
      exact Or.inr rfl
    · rw [Function.update_noteq hc]
      exact hJ.track01 c
  · show ((st.t + 1 : ℕ) : ℤ) ≤ pfBound ctx
    have hlt : (st.t : ℤ) < pfBound ctx := lt_of_not_le hguard
    omega
  · intro s hs htr
    simp only [pfScanSt] at hs htr ⊢
    by_cases hse : s = st.t + 1
    · subst hse
      rw [Function.update_same]
      exact Or.inr ⟨hbox, hig⟩
    · rw [Function.update_noteq hse] at htr ⊢
      rw [htrk] at htr
      by_cases hpc : st.path s = st.path st.t
      · rw [hpc, Function.update_same] at htr
        exact absurd htr one_ne_zero
      · rw [Function.update_noteq hpc] at htr
        exact hJ.posOK s (by omega) htr

theorem pfMeasure_scan (ctx : PFCtx) (start tgt : Cell) (st : PFState)
    (hBmag : ∀ c, ctx.Bmag c = Real.sqrt (ctx.Bx c * ctx.Bx c + ctx.By c * ctx.By c
      + ctx.Bz c * ctx.Bz c))
    (h01 : ∀ c, ctx.ignore c = 0 ∨ ctx.ignore c = 1)
    (hJ : PFInv ctx start st) (hguard : ¬pfBound ctx ≤ (st.t : ℤ))
    (hgo : (pfScanRes ctx tgt st).go = true) :
    pfMeasure ctx (pfScanSt ctx tgt st) < pfMeasure ctx st := by
  obtain ⟨htrk, hsel, hbox, hig, htr0⟩ :=
    (pfScanRes_spec ctx tgt st hBmag h01 hJ.track01).2 hgo
  have hlt : (st.t : ℤ) < pfBound ctx := lt_of_not_le hguard
  have ht2 : st.t + 1 + 1 < (pfBound ctx).toNat + 2 := by omega
  unfold pfMeasure
  simp only [pfScanSt]
  rw [htrk, Function.update_same]
  rcases hJ.track01 (st.path st.t) with hc0 | hc1
  · have hU : untracked ctx (Function.update st.track (st.path st.t) 1)
        < untracked ctx st.track :=
      untracked_update_lt ctx st.track (st.path st.t)
        ((mem_boxFinset ctx _).mpr (hJ.inb st.t le_rfl)) hc0
    rw [if_pos hc0]
    have hterm : (if Function.update st.track (st.path st.t) 1
        (addc (st.path st.t) (pfScanRes ctx tgt st).sel) = 0 then 0 else st.t + 1 + 1)
        < (pfBound ctx).toNat + 2 := by
      split <;> omega
    calc ((pfBound ctx).toNat + 2) * untracked ctx (Function.update st.track (st.path st.t) 1)
          + (if Function.update st.track (st.path st.t) 1
              (addc (st.path st.t) (pfScanRes ctx tgt st).sel) = 0 then 0 else st.t + 1 + 1)
        < ((pfBound ctx).toNat + 2) * untracked ctx (Function.update st.track (st.path st.t) 1)
          + ((pfBound ctx).toNat + 2) := Nat.add_lt_add_left hterm _
      _ = ((pfBound ctx).toNat + 2)
          * (untracked ctx (Function.update st.track (st.path st.t) 1) + 1) := by ring
      _ ≤ ((pfBound ctx).toNat + 2) * untracked ctx st.track := Nat.mul_le_mul_left _ hU
      _ ≤ ((pfBound ctx).toNat + 2) * untracked ctx st.track + 0 := le_rfl
  · rw [update_one_eq_self st.track (st.path st.t) hc1, if_pos htr0,
      if_neg (by rw [hc1]; exact one_ne_zero)]
    omega

theorem pfInv_back (ctx : PFCtx) (start tgt : Cell) (st : PFState)
    (hBmag : ∀ c, ctx.Bmag c = Real.sqrt (ctx.Bx c * ctx.Bx c + ctx.By c * ctx.By c
      + ctx.Bz c * ctx.Bz c))
    (h01 : ∀ c, ctx.ignore c = 0 ∨ ctx.ignore c = 1)
    (hJ : PFInv ctx start st)
    (hgo : ¬(pfScanRes ctx tgt st).go = true) :
    PFInv ctx start (pfBackSt ctx tgt st) := by
  obtain ⟨htrk, -⟩ := (pfScanRes_spec ctx tgt st hBmag h01 hJ.track01).1
    (Bool.not_eq_true _ ▸ hgo)
  refine ⟨hJ.path0, ?_, ?_, ?_, ?_, ?_, ?_⟩
  · intro s hs
    exact hJ.inb s (by simp only [pfBackSt] at hs; omega)
  · intro s hs
    exact hJ.adj s (by simp only [pfBackSt] at hs; omega)
  · intro s h1 h2
    exact hJ.ign s h1 (by simp only [pfBackSt] at h2; omega)
  · intro c
    show (pfScanRes ctx tgt st).track c = 0 ∨ (pfScanRes ctx tgt st).track c = 1
    rw [htrk]
    exact hJ.track01 c
  · show ((st.t - 1 : ℕ) : ℤ) ≤ pfBound ctx
    have := hJ.tbound
    omega
  · intro s hs htr
    simp only [pfBackSt] at hs htr
    rw [htrk] at htr
    exact hJ.posOK s (by omega) htr

theorem pfMeasure_back (ctx : PFCtx) (start tgt : Cell) (st : PFState)
    (hBmag : ∀ c, ctx.Bmag c = Real.sqrt (ctx.Bx c * ctx.Bx c + ctx.By c * ctx.By c
      + ctx.Bz c * ctx.Bz c))
    (h01 : ∀ c, ctx.ignore c = 0 ∨ ctx.ignore c = 1)
    (hJ : PFInv ctx start st)
    (hgo : ¬(pfScanRes ctx tgt st).go = true) (hz : st.t ≠ 0) :
    pfMeasure ctx (pfBackSt ctx tgt st) < pfMeasure ctx st := by
  obtain ⟨htrk, hnopass⟩ := (pfScanRes_spec ctx tgt st hBmag h01 hJ.track01).1
    (Bool.not_eq_true _ ▸ hgo)
  have hcur1 : st.track (st.path st.t) = 1 := by
    rcases hJ.track01 (st.path st.t) with hc0 | hc1
    · rcases hJ.posOK st.t le_rfl hc0 with h0 | ⟨hbx, hgn⟩
      · exact absurd h0 hz
      · exact absurd (show scanPass ctx (st.path st.t) st.track ((0 : ℤ), (0 : ℤ), (0 : ℤ)) by
          refine ⟨?_, ?_⟩
          · rw [addc_zero]
            exact hbx
          · rw [addc_zero, hgn, hc0]
            ring) (hnopass _ zero_mem_offsets)
    · exact hc1
  unfold pfMeasure
  simp only [pfBackSt]
  rw [htrk]
  have h2 : (if st.track (st.path st.t) = 0 then 0 else st.t + 1) = st.t + 1 :=
    if_neg (by rw [hcur1]; exact one_ne_zero)
  rw [h2]
  have hterm : (if st.track (st.path (st.t - 1)) = 0 then 0 else st.t - 1 + 1) < st.t + 1 := by
    split <;> omega
  omega

theorem pf_go_spec (ctx : PFCtx) (start tgt : Cell)
    (hBmag : ∀ c, ctx.Bmag c = Real.sqrt (ctx.Bx c * ctx.Bx c + ctx.By c * ctx.By c
      + ctx.Bz c * ctx.Bz c))
    (h01 : ∀ c, ctx.ignore c = 0 ∨ ctx.ignore c = 1)
    (htgt : inGrid ctx tgt) :
    ∀ fuel st, PFInv ctx start st → pfMeasure ctx st < fuel →
      ∃ out, pf_go ctx tgt fuel st = some out
        ∧ out.path 0 = start
        ∧ (out.reason = PFReason.reachedTarget →
            out.path out.len = tgt
            ∧ (∀ s, s < out.len → adjStep (out.path s) (out.path (s + 1)))
            ∧ (∀ s, 1 ≤ s → s ≤ out.len → ctx.ignore (out.path s) = 0)
            ∧ (∀ s, s ≤ out.len → inGrid ctx (out.path s)))
        ∧ (out.reason ≠ PFReason.reachedTarget → out.len = 0)
        ∧ (st.t = 0 → st.path 0 = tgt → out.len = 0) := by
  intro fuel
  induction fuel with
  | zero => exact fun st hJ hm => absurd hm (Nat.not_lt_zero _)
  | succ f ih =>
    intro st hJ hm
    simp only [pf_go]
    by_cases hguard : pfBound ctx ≤ (st.t : ℤ)
    · rw [if_pos hguard]
      have ht : (st.t : ℤ) = pfBound ctx := le_antisymm hJ.tbound hguard
      refine ⟨_, rfl, hJ.path0, ?_, ?_, ?_⟩
      · intro hr
        exact PFReason.noConfusion hr
      · intro _
        show (if (st.t : ℤ) = pfBound ctx then 0 else st.t) = 0
        rw [if_pos ht]
      · intro _ _
        show (if (st.t : ℤ) = pfBound ctx then 0 else st.t) = 0
        rw [if_pos ht]
    · rw [if_neg hguard]
      by_cases htar : st.path st.t = tgt
      · rw [if_pos htar]
        refine ⟨_, rfl, hJ.path0, ?_, ?_, ?_⟩
        · intro _
          exact ⟨htar, fun s hs => hJ.adj s hs, fun s h1 h2 => hJ.ign s h1 h2,
            fun s hs => hJ.inb s hs⟩
        · intro hr
          exact absurd rfl hr
        · intro h0 _
          exact h0
      · rw [if_neg htar]
        by_cases hdir : ctx.ignore (pfNu tgt st) + st.track (pfNu tgt st) = 0
        · rw [if_pos hdir]
          have hm' := pfMeasure_direct ctx start tgt st h01 htgt hJ hguard hdir
          obtain ⟨out, hout, h1, h2, h3, -⟩ :=
            ih (pfDirectSt tgt st) (pfInv_direct ctx start tgt st h01 htgt hJ hguard hdir)
              (by omega)
          exact ⟨out, hout, h1, h2, h3,
            fun h0 hp => absurd (show st.path st.t = tgt by rw [h0]; exact hp) htar⟩
        · rw [if_neg hdir]
          by_cases hgo : (pfScanRes ctx tgt st).go = true
          · rw [if_pos hgo]
            have hm' := pfMeasure_scan ctx start tgt st hBmag h01 hJ hguard hgo
            obtain ⟨out, hout, h1, h2, h3, -⟩ :=
              ih (pfScanSt ctx tgt st)
                (pfInv_scan ctx start tgt st hBmag h01 hJ hguard hgo) (by omega)
            exact ⟨out, hout, h1, h2, h3,
              fun h0 hp => absurd (show st.path st.t = tgt by rw [h0]; exact hp) htar⟩
          · rw [if_neg hgo]
            by_cases hz : st.t = 0
            · rw [if_pos hz]
              refine ⟨_, rfl, hJ.path0, ?_, fun _ => rfl, fun _ _ => rfl⟩
              intro hr
              exact PFReason.noConfusion hr
            · rw [if_neg hz]
              have hm' := pfMeasure_back ctx start tgt st hBmag h01 hJ hgo hz
              obtain ⟨out, hout, h1, h2, h3, -⟩ :=
                ih (pfBackSt ctx tgt st)
                  (pfInv_back ctx start tgt st hBmag h01 hJ hgo) (by omega)
              exact ⟨out, hout, h1, h2, h3, fun h0 _ => absurd h0 hz⟩

theorem pfInv_init (ctx : PFCtx) (start : Cell) (hstart : inGrid ctx start) :
    PFInv ctx start (pf_init start) := by
  refine ⟨?_, ?_, ?_, ?_, ?_, ?_, ?_⟩
  · show Function.update (fun _ => ((0 : ℤ), (0 : ℤ), (0 : ℤ))) 0 start 0 = start
    rw [Function.update_same]
  · intro s hs
    simp only [pf_init] at hs
    have h0 : s = 0 := Nat.le_zero.mp hs
    subst h0
    show inGrid ctx (Function.update (fun _ => ((0 : ℤ), (0 : ℤ), (0 : ℤ))) 0 start 0)
    rw [Function.update_same]
    exact hstart
  · intro s hs
    simp only [pf_init] at hs
    exact absurd hs (Nat.not_lt_zero s)
  · intro s h1 h2
    simp only [pf_init] at h2
    exact absurd (h1.trans h2) (by norm_num)
  · intro c
    exact Or.inl rfl
  · show ((0 : ℕ) : ℤ) ≤ pfBound ctx
    obtain ⟨a1, a2, b1, b2, d1, d2⟩ := hstart
    unfold pfBound
    push_cast
    omega
  · intro s hs _
    simp only [pf_init] at hs
    exact Or.inl (Nat.le_zero.mp hs)

theorem pfMeasure_init_lt (ctx : PFCtx) (start : Cell) (hstart : inGrid ctx start) :
    pfMeasure ctx (pf_init start) < pathfind_fuel ctx := by
  obtain ⟨a1, a2, b1, b2, d1, d2⟩ := hstart
  have e1 : (ctx.Nx - 1 + 1 - 0).toNat = ctx.Nx.toNat := by omega
  have e2 : (ctx.Ny - 1 + 1 - 0).toNat = ctx.Ny.toNat := by omega
  have e3 : (ctx.Nz - 1 + 1 - 0).toNat = ctx.Nz.toNat := by omega
  have hcard : (boxFinset ctx).card = ctx.Nx.toNat * (ctx.Ny.toNat * ctx.Nz.toNat) := by
    unfold boxFinset
    rw [Finset.card_product, Finset.card_product, Int.card_Icc, Int.card_Icc, Int.card_Icc,
      e1, e2, e3]
  have hmul : (ctx.Nx * ctx.Ny * ctx.Nz).toNat = ctx.Nx.toNat * (ctx.Ny.toNat * ctx.Nz.toNat) := by
    obtain ⟨nx, hnx⟩ := Int.eq_ofNat_of_zero_le (by omega : (0 : ℤ) ≤ ctx.Nx)
    obtain ⟨ny, hny⟩ := Int.eq_ofNat_of_zero_le (by omega : (0 : ℤ) ≤ ctx.Ny)
    obtain ⟨nz, hnz⟩ := Int.eq_ofNat_of_zero_le (by omega : (0 : ℤ) ≤ ctx.Nz)
    rw [hnx, hny, hnz, ← Nat.cast_mul, ← Nat.cast_mul, Int.toNat_natCast, Int.toNat_natCast,
      Int.toNat_natCast, Int.toNat_natCast, Nat.mul_assoc]
  unfold pfMeasure pf_init pathfind_fuel untracked
  simp only
  rw [Finset.filter_True, hcard, if_pos trivial, ← hmul]
  have hle := Nat.mul_le_mul_left ((pfBound ctx).toNat + 2)
    (Nat.le_succ ((ctx.Nx * ctx.Ny * ctx.Nz).toNat))
  rw [Nat.succ_eq_add_one] at hle
  omega

theorem pathfind_spec (ctx : PFCtx) (start tgt : Cell)
    (hBmag : ∀ c, ctx.Bmag c = Real.sqrt (ctx.Bx c * ctx.Bx c + ctx.By c * ctx.By c
      + ctx.Bz c * ctx.Bz c))
    (h01 : ∀ c, ctx.ignore c = 0 ∨ ctx.ignore c = 1)
    (hstart : inGrid ctx start) (htgt : inGrid ctx tgt) :
    ∃ out, pathfind ctx start tgt = some out
      ∧ out.path 0 = start
      ∧ (out.reason = PFReason.reachedTarget →
          out.path out.len = tgt
          ∧ (∀ s, s < out.len → adjStep (out.path s) (out.path (s + 1)))
          ∧ (∀ s, 1 ≤ s → s ≤ out.len → ctx.ignore (out.path s) = 0)
          ∧ (∀ s, s ≤ out.len → inGrid ctx (out.path s)))
      ∧ (out.reason ≠ PFReason.reachedTarget → out.len = 0)
      ∧ (start = tgt → out.len = 0) := by
  obtain ⟨out, hout, h1, h2, h3, h4⟩ :=
    pf_go_spec ctx start tgt hBmag h01 htgt (pathfind_fuel ctx) (pf_init start)
      (pfInv_init ctx start hstart) (pfMeasure_init_lt ctx start hstart)
  refine ⟨out, hout, h1, h2, h3, fun he => h4 rfl ?_⟩
  show Function.update (fun _ => ((0 : ℤ), (0 : ℤ), (0 : ℤ))) 0 start 0 = tgt
  rw [Function.update_same]
  exact he

/-! ## Claims C3 and C9 -/

/-- **C3 (amended).** `pathfind` always returns (a failed search is reported
through a zero-length path, never by aborting), and the returned path has
length zero exactly when the walk hit the length bound `Nx+Ny+Nz` (whether or
not its last step had arrived at the target), when step 0 had no viable
neighbour, or when the start cell already equals the target; and a zero-length
path makes `phi_calc_B`'s integration walk a no-op, so the target cell keeps
its missed flag. -/
theorem c3_pathfind_empty_iff (ctx : PFCtx) (start tgt : Cell)
    (hBmag : ∀ c, ctx.Bmag c = Real.sqrt (ctx.Bx c * ctx.Bx c + ctx.By c * ctx.By c
      + ctx.Bz c * ctx.Bz c))
    (h01 : ∀ c, ctx.ignore c = 0 ∨ ctx.ignore c = 1)
    (hstart : inGrid ctx start) (htgt : inGrid ctx tgt) :
    ∃ out, pathfind ctx start tgt = some out
      ∧ (out.len = 0 ↔ out.reason = PFReason.hitBound ∨ out.reason = PFReason.noViableAtZero
          ∨ start = tgt)
      ∧ (out.len = 0 → ∀ hh st, phi_walk hh ctx.Bx ctx.By ctx.Bz out.path out.len st = st) := by
  obtain ⟨out, hout, h1, h2, h3, h4⟩ := pathfind_spec ctx start tgt hBmag h01 hstart htgt
  refine ⟨out, hout, ⟨?_, ?_⟩, ?_⟩
  · intro hlen
    cases hre : out.reason with
    | reachedTarget =>
      right; right
      have hpt := (h2 hre).1
      rw [hlen] at hpt
      rw [← h1]
      exact hpt
    | hitBound => exact Or.inl rfl
    | noViableAtZero => exact Or.inr (Or.inl rfl)
  · intro hr
    rcases hr with hr | hr | hr
    · exact h3 (by rw [hr]; exact fun h => PFReason.noConfusion h)
    · exact h3 (by rw [hr]; exact fun h => PFReason.noConfusion h)
    · exact h4 hr
  · intro hlen hh st
    rw [hlen]
    rfl

theorem c3_pathfind_empty_iff_witness :
    (∀ c, ctxEx.Bmag c = Real.sqrt (ctxEx.Bx c * ctxEx.Bx c + ctxEx.By c * ctxEx.By c
      + ctxEx.Bz c * ctxEx.Bz c))
    ∧ (∀ c : Cell, ctxEx.ignore c = 0 ∨ ctxEx.ignore c = 1)
    ∧ inGrid ctxEx ((1 : ℤ), (1 : ℤ), (1 : ℤ)) ∧ inGrid ctxEx ((1 : ℤ), (1 : ℤ), (0 : ℤ))
    ∧ ∃ out, pathfind ctxEx ((1 : ℤ), (1 : ℤ), (1 : ℤ)) ((1 : ℤ), (1 : ℤ), (0 : ℤ)) = some out
        ∧ (out.len = 0 ↔ out.reason = PFReason.hitBound ∨ out.reason = PFReason.noViableAtZero
            ∨ ((1 : ℤ), (1 : ℤ), (1 : ℤ)) = ((1 : ℤ), (1 : ℤ), (0 : ℤ)))
        ∧ (out.len = 0 →
            ∀ hh st, phi_walk hh ctxEx.Bx ctxEx.By ctxEx.Bz out.path out.len st = st) := by
  have hB : ∀ c, ctxEx.Bmag c = Real.sqrt (ctxEx.Bx c * ctxEx.Bx c + ctxEx.By c * ctxEx.By c
      + ctxEx.Bz c * ctxEx.Bz c) := by
    intro c
    show (1 : ℝ) = Real.sqrt (1 * 1 + 0 * 0 + 0 * 0)
    rw [show (1 : ℝ) * 1 + 0 * 0 + 0 * 0 = 1 by ring, Real.sqrt_one]
  have h01 : ∀ c : Cell, ctxEx.ignore c = 0 ∨ ctxEx.ignore c = 1 := fun _ => Or.inl rfl
  have hs : inGrid ctxEx ((1 : ℤ), (1 : ℤ), (1 : ℤ)) := by
    refine ⟨?_, ?_, ?_, ?_, ?_, ?_⟩ <;> norm_num [ctxEx]
  have ht : inGrid ctxEx ((1 : ℤ), (1 : ℤ), (0 : ℤ)) := by
    refine ⟨?_, ?_, ?_, ?_, ?_, ?_⟩ <;> norm_num [ctxEx]
  exact ⟨hB, h01, hs, ht, c3_pathfind_empty_iff ctxEx _ _ hB h01 hs ht⟩

/-- **C3, counterexample to the original claim.**  A zero-length path is not
returned *only* in the two failure cases: a search whose start cell already
equals the target succeeds (it reaches the target) and still returns length
`0`. -/
theorem pf_go_succ (ctx : PFCtx) (tgt : Cell) (fuel : ℕ) (st : PFState) :
    pf_go ctx tgt (fuel + 1) st =
      if pfBound ctx ≤ (st.t : ℤ) then
        some ⟨if (st.t : ℤ) = pfBound ctx then 0 else st.t, st.path, .hitBound⟩
      else if st.path st.t = tgt then some ⟨st.t, st.path, .reachedTarget⟩
      else if ctx.ignore (pfNu tgt st) + st.track (pfNu tgt st) = 0 then
        pf_go ctx tgt fuel (pfDirectSt tgt st)
      else if (pfScanRes ctx tgt st).go then pf_go ctx tgt fuel (pfScanSt ctx tgt st)
      else if st.t = 0 then some ⟨0, st.path, .noViableAtZero⟩
      else pf_go ctx tgt fuel (pfBackSt ctx tgt st) := rfl

theorem c3_trivial_target_zero_length :
    ∃ out, pathfind ctxEx ((1 : ℤ), (1 : ℤ), (1 : ℤ)) ((1 : ℤ), (1 : ℤ), (1 : ℤ)) = some out
      ∧ out.len = 0 ∧ out.reason = PFReason.reachedTarget := by
  have hfuel : pathfind_fuel ctxEx = 72 + 1 := by
    simp only [pathfind_fuel, pfBound, ctxEx]
    decide
  refine ⟨⟨0, Function.update (fun _ => ((0 : ℤ), (0 : ℤ), (0 : ℤ))) 0
    ((1 : ℤ), (1 : ℤ), (1 : ℤ)), PFReason.reachedTarget⟩, ?_, rfl, rfl⟩
  unfold pathfind
  rw [hfuel, pf_go_succ]
  simp only [pf_init]
  rw [if_neg (show ¬pfBound ctxEx ≤ (((0 : ℕ) : ℤ)) by norm_num [pfBound, ctxEx]),
    if_pos (show Function.update (fun _ => ((0 : ℤ), (0 : ℤ), (0 : ℤ))) (0 : ℕ)
      ((1 : ℤ), (1 : ℤ), (1 : ℤ)) 0 = ((1 : ℤ), (1 : ℤ), (1 : ℤ)) from
      Function.update_same _ _ _)]

/-- **C9.** Whenever `pathfind` returns a positive length `t > 0`, the stored
path is a valid grid walk: it starts at the base cell, ends at the target
cell, consecutive cells differ by at most `1` in each of the three indices,
and no cell after position `0` has its ignore flag set. -/
theorem c9_pathfind_valid_walk (ctx : PFCtx) (start tgt : Cell)
    (hBmag : ∀ c, ctx.Bmag c = Real.sqrt (ctx.Bx c * ctx.Bx c + ctx.By c * ctx.By c
      + ctx.Bz c * ctx.Bz c))
    (h01 : ∀ c, ctx.ignore c = 0 ∨ ctx.ignore c = 1)
    (hstart : inGrid ctx start) (htgt : inGrid ctx tgt) :
    ∃ out, pathfind ctx start tgt = some out
      ∧ (0 < out.len →
          out.path 0 = start
          ∧ out.path out.len = tgt
          ∧ (∀ s, s < out.len → adjStep (out.path s) (out.path (s + 1)))
          ∧ (∀ s, 1 ≤ s → s ≤ out.len → ctx.ignore (out.path s) = 0)) := by
  obtain ⟨out, hout, h1, h2, h3, -⟩ := pathfind_spec ctx start tgt hBmag h01 hstart htgt
  refine ⟨out, hout, fun hpos => ?_⟩
  by_cases hre : out.reason = PFReason.reachedTarget
  · obtain ⟨ha, hb, hc, -⟩ := h2 hre
    exact ⟨h1, ha, hb, hc⟩
  · exact absurd (h3 hre) (by omega)

theorem c9_pathfind_valid_walk_witness :
    (∀ c, ctxEx.Bmag c = Real.sqrt (ctxEx.Bx c * ctxEx.Bx c + ctxEx.By c * ctxEx.By c
      + ctxEx.Bz c * ctxEx.Bz c))
    ∧ (∀ c : Cell, ctxEx.ignore c = 0 ∨ ctxEx.ignore c = 1)
    ∧ inGrid ctxEx ((1 : ℤ), (1 : ℤ), (0 : ℤ)) ∧ inGrid ctxEx ((1 : ℤ), (1 : ℤ), (1 : ℤ))
    ∧ ∃ out, pathfind ctxEx ((1 : ℤ), (1 : ℤ), (0 : ℤ)) ((1 : ℤ), (1 : ℤ), (1 : ℤ)) = some out
        ∧ (0 < out.len →
            out.path 0 = ((1 : ℤ), (1 : ℤ), (0 : ℤ))
            ∧ out.path out.len = ((1 : ℤ), (1 : ℤ), (1 : ℤ))
            ∧ (∀ s, s < out.len → adjStep (out.path s) (out.path (s + 1)))
            ∧ (∀ s, 1 ≤ s → s ≤ out.len → ctxEx.ignore (out.path s) = 0)) := by
  have hB : ∀ c, ctxEx.Bmag c = Real.sqrt (ctxEx.Bx c * ctxEx.Bx c + ctxEx.By c * ctxEx.By c
      + ctxEx.Bz c * ctxEx.Bz c) := by
    intro c
    show (1 : ℝ) = Real.sqrt (1 * 1 + 0 * 0 + 0 * 0)
    rw [show (1 : ℝ) * 1 + 0 * 0 + 0 * 0 = 1 by ring, Real.sqrt_one]
  have h01 : ∀ c : Cell, ctxEx.ignore c = 0 ∨ ctxEx.ignore c = 1 := fun _ => Or.inl rfl
  have hs : inGrid ctxEx ((1 : ℤ), (1 : ℤ), (0 : ℤ)) := by
    refine ⟨?_, ?_, ?_, ?_, ?_, ?_⟩ <;> norm_num [ctxEx]
  have ht : inGrid ctxEx ((1 : ℤ), (1 : ℤ), (1 : ℤ)) := by
    refine ⟨?_, ?_, ?_, ?_, ?_, ?_⟩ <;> norm_num [ctxEx]
  exact ⟨hB, h01, hs, ht, c9_pathfind_valid_walk ctxEx _ _ hB h01 hs ht⟩

end

end FN
